import Mathlib

/-!
Shallow embedding of the adaptive publication-clustering engine
(`src/backend/publication_clustering.py` and `src/backend/adaptive_clustering.py`).

Modelling conventions:

* IEEE doubles are modelled as exact rationals `ℚ`.  A raw embedding entry that
  may be `NaN` is `Option ℚ` with `none = NaN`.  The `float('inf')` sentinel in
  the Davies-Bouldin score list is `Option ℚ` with `none = +inf`.
* `np.linalg.norm` divides by a square root, which is irrational in general.
  An engine vector `NVec` therefore stores the exact rational entries together
  with a flag recording whether the code divided the vector by its (positive)
  L2 norm.  The real-valued contents are recovered by `NVec.toRealVec`; every
  other operation of the source only needs the rational data (in particular
  `ndarray.any()`, elementwise nonzero-ness, is invariant under scaling by a
  positive constant).
* Calls into sklearn / umap / hdbscan are opaque `Oracles` fields; a library
  call that can raise returns an `Option`, with `none` modelling a raised
  exception, which the embedding then catches (or propagates) exactly where
  the source does.
-/

namespace PubClust

/-- A raw embedding entry as stored in a document: `none` models a NaN float. -/
abbrev RawEntry := Option ℚ

/-- An engine vector: exact rational entries plus a flag telling whether the
source divided the vector by its positive L2 norm (`vec = vec / norm`). -/
structure NVec where
  raw : List ℚ
  scaled : Bool
deriving Repr, DecidableEq

/-- Sum of squares of a rational list (the square of `np.linalg.norm`). -/
def sumSq (l : List ℚ) : ℚ := (l.map (fun x => x * x)).sum

/-- The all-zero sentinel vector `np.zeros(dim)`. -/
def zeroVec (dim : ℕ) : NVec := ⟨List.replicate dim 0, false⟩

/-- The real-valued contents of an engine vector: the stored rationals,
divided by the real square root of the stored sum of squares when the source
performed the `vec / norm` step. -/
noncomputable def NVec.toRealVec (v : NVec) : List ℝ :=
  if v.scaled then v.raw.map (fun x : ℚ => (x : ℝ) / Real.sqrt ((sumSq v.raw : ℚ) : ℝ))
  else v.raw.map (fun x : ℚ => (x : ℝ))

/-- Elementwise nonzero test `vec.any()`.  Scaling by a positive constant does
not change which entries are nonzero, so the test reads the rational data. -/
def NVec.anyNonzero (v : NVec) : Bool := v.raw.any (fun x => x != 0)

/-- A document as consumed by the engine (`pub.get(...)` fields).
`keywords = none` covers both an absent field and a non-list value, which the
source treats identically (`... if isinstance(..., list) else []`). -/
structure Publication where
  id : Option String
  combined_embedding : Option (List RawEntry)
  title : Option String
  keywords : Option (List String)
  publication_year : Option ℤ
deriving Repr, DecidableEq

/-- Python truthiness of the `id` field: `None` and the empty string are falsy. -/
def truthy (s : Option String) : Bool :=
  match s with
  | none => false
  | some t => t ≠ ""

/-- The vector cache `self._vector_cache`, an insertion-ordered dict. -/
abbrev VCache := List (String × NVec)

/-- Validation and normalisation of a raw embedding, the non-cached part of
`_get_publication_vector`: absent, wrong-dimension or NaN-containing input is
replaced by the zero sentinel, otherwise the vector is L2-normalised when its
norm is positive (`norm > 0` iff the sum of squares is positive). -/
def computeVec (dim : ℕ) (rawOpt : Option (List RawEntry)) : NVec :=
  match rawOpt with
  | none => zeroVec dim
  | some raw =>
    if raw.length ≠ dim ∨ raw.any (fun e => e.isNone) then zeroVec dim
    else
      let q := raw.filterMap id
      if 0 < sumSq q then ⟨q, true⟩ else ⟨q, false⟩

/-- `PublicationClustering._get_publication_vector`: cached lookup for a truthy
id, else validate/normalise, caching the result only under a truthy id. -/
def get_publication_vector (dim : ℕ) (cache : VCache) (pub : Publication) :
    NVec × VCache :=
  match pub.id with
  | some p =>
    if p ≠ "" then
      match cache.lookup p with
      | some v => (v, cache)
      | none =>
        let vec := computeVec dim pub.combined_embedding
        (vec, cache ++ [(p, vec)])
    else
      (computeVec dim pub.combined_embedding, cache)
  | none => (computeVec dim pub.combined_embedding, cache)

/-- Real-number sum of squares. -/
def sumSqReal (l : List ℝ) : ℝ := (l.map (fun x => x * x)).sum

/-- Every entry of the real contents is zero. -/
def allZeroReal (l : List ℝ) : Prop := ∀ x ∈ l, x = 0

/-- The vector is the all-zero sentinel or has unit L2 norm. -/
def zeroOrUnit (v : NVec) : Prop :=
  allZeroReal v.toRealVec ∨ sumSqReal v.toRealVec = 1

lemma sumSq_nonneg (l : List ℚ) : 0 ≤ sumSq l := by
  induction l with
  | nil => simp [sumSq]
  | cons x xs ih =>
    simp only [sumSq, List.map_cons, List.sum_cons]
    have : 0 ≤ x * x := mul_self_nonneg x
    have h2 : 0 ≤ (xs.map (fun x => x * x)).sum := ih
    simpa [sumSq] using add_nonneg this h2

lemma sumSq_eq_zero {l : List ℚ} (h : sumSq l = 0) : ∀ x ∈ l, x = 0 := by
  induction l with
  | nil => simp
  | cons y ys ih =>
    simp only [sumSq, List.map_cons, List.sum_cons] at h
    have hy : 0 ≤ y * y := mul_self_nonneg y
    have hys : 0 ≤ (ys.map (fun x => x * x)).sum := sumSq_nonneg ys
    have hy0 : y * y = 0 := le_antisymm (by linarith) hy
    have hys0 : sumSq ys = 0 := by
      simp only [sumSq]; linarith
    intro x hx
    rcases List.mem_cons.mp hx with rfl | hmem
    · exact mul_self_eq_zero.mp hy0
    · exact ih hys0 x hmem

lemma toRealVec_scaled (q : List ℚ) :
    (NVec.mk q true).toRealVec =
      q.map (fun x : ℚ => (x : ℝ) / Real.sqrt ((sumSq q : ℚ) : ℝ)) := by
  simp [NVec.toRealVec]

lemma toRealVec_unscaled (q : List ℚ) :
    (NVec.mk q false).toRealVec = q.map (fun x : ℚ => (x : ℝ)) := by
  simp [NVec.toRealVec]

lemma sumSqReal_map_div (l : List ℚ) (c : ℝ) :
    sumSqReal (l.map (fun x : ℚ => (x : ℝ) / c)) = ((sumSq l : ℚ) : ℝ) / (c * c) := by
  induction l with
  | nil => simp [sumSqReal, sumSq]
  | cons x xs ih =>
    simp only [sumSqReal, sumSq, List.map_cons, List.sum_cons] at *
    rw [div_mul_div_comm, ih, Rat.cast_add, Rat.cast_mul, div_add_div_same]

/-- `computeVec` always produces the zero sentinel or a unit-norm vector. -/
lemma computeVec_zeroOrUnit (dim : ℕ) (rawOpt : Option (List RawEntry)) :
    zeroOrUnit (computeVec dim rawOpt) := by
  have hzero : ∀ n : ℕ, zeroOrUnit (zeroVec n) := by
    intro n
    left
    intro x hx
    rw [zeroVec, toRealVec_unscaled] at hx
    rcases List.mem_map.mp hx with ⟨q, hq, rfl⟩
    have : q = 0 := List.eq_of_mem_replicate hq
    simp [this]
  unfold computeVec
  match rawOpt with
  | none => exact hzero dim
  | some raw =>
    by_cases hval : raw.length ≠ dim ∨ raw.any (fun e => e.isNone)
    · simp only [hval, if_true]
      exact hzero dim
    · simp only [hval, if_false]
      set q := raw.filterMap id with hq
      by_cases hpos : 0 < sumSq q
      · simp only [hpos, if_true]
        right
        have hS : (0 : ℝ) < ((sumSq q : ℚ) : ℝ) := by exact_mod_cast hpos
        rw [toRealVec_scaled, sumSqReal_map_div]
        rw [Real.mul_self_sqrt (le_of_lt hS)]
        exact div_self (ne_of_gt hS)
      · simp only [hpos, if_false]
        left
        have h0 : sumSq q = 0 := le_antisymm (not_lt.mp hpos) (sumSq_nonneg q)
        intro x hx
        rw [toRealVec_unscaled] at hx
        rcases List.mem_map.mp hx with ⟨y, hy, rfl⟩
        have : y = 0 := sumSq_eq_zero h0 y hy
        simp [this]

lemma lookup_mem {p : String} {v : NVec} :
    ∀ {c : VCache}, c.lookup p = some v → (p, v) ∈ c := by
  intro c
  induction c with
  | nil => simp [List.lookup]
  | cons hd tl ih =>
    intro h
    rcases hd with ⟨k, b⟩
    by_cases hpk : p = k
    · subst hpk
      simp [List.lookup] at h
      subst h
      exact List.mem_cons_self _ _
    · have hbeq : (p == k) = false := beq_eq_false_iff_ne.mpr hpk
      simp [List.lookup, hbeq] at h
      exact List.mem_cons_of_mem _ (ih h)

/-- C10: `_get_publication_vector` returns the zero sentinel or a unit-L2-norm
vector, and keeps every cached vector in that shape (the invariant holds for
every reachable cache since the engine starts with an empty one); a truthy id
already in the cache returns the cached vector with the cache unchanged, no
matter what embedding (if any) the current document carries; the cache is left
untouched for a falsy id, and a fresh truthy id appends exactly its vector. -/
theorem C10_get_publication_vector_invariants
    (dim : ℕ) (cache : VCache) (pub : Publication)
    (hc : ∀ p v, (p, v) ∈ cache → zeroOrUnit v) :
    zeroOrUnit (get_publication_vector dim cache pub).1
    ∧ (∀ p v, (p, v) ∈ (get_publication_vector dim cache pub).2 → zeroOrUnit v)
    ∧ (∀ p, pub.id = some p → p ≠ "" → ∀ v, cache.lookup p = some v →
        get_publication_vector dim cache pub = (v, cache))
    ∧ (truthy pub.id = false → (get_publication_vector dim cache pub).2 = cache)
    ∧ (∀ p, pub.id = some p → p ≠ "" → cache.lookup p = none →
        (get_publication_vector dim cache pub).2
          = cache ++ [(p, (get_publication_vector dim cache pub).1)]) := by
  match hid : pub.id with
  | none =>
    have heq : get_publication_vector dim cache pub
        = (computeVec dim pub.combined_embedding, cache) := by
      simp [get_publication_vector, hid]
    rw [heq]
    refine ⟨computeVec_zeroOrUnit dim _, hc, ?_, fun _ => rfl, ?_⟩
    · intro p hp
      exact Option.noConfusion hp
    · intro p hp
      exact Option.noConfusion hp
  | some p =>
    by_cases hp : p = ""
    · have heq : get_publication_vector dim cache pub
          = (computeVec dim pub.combined_embedding, cache) := by
        simp [get_publication_vector, hid, hp]
      rw [heq]
      refine ⟨computeVec_zeroOrUnit dim _, hc, ?_, fun _ => rfl, ?_⟩
      · intro q hq hne
        injection hq with hq
        exact absurd (hq ▸ hp) hne
      · intro q hq hne
        injection hq with hq
        exact absurd (hq ▸ hp) hne
    · match hlk : cache.lookup p with
      | some v =>
        have heq : get_publication_vector dim cache pub = (v, cache) := by
          simp [get_publication_vector, hid, hp, hlk]
        rw [heq]
        refine ⟨hc p v (lookup_mem hlk), hc, ?_, fun _ => rfl, ?_⟩
        · intro q hq _ w hw
          injection hq with hq
          subst hq
          rw [hlk] at hw
          injection hw with hw
          rw [hw]
        · intro q hq _ hw
          injection hq with hq
          subst hq
          rw [hlk] at hw
          exact Option.noConfusion hw
      | none =>
        have heq : get_publication_vector dim cache pub
            = (computeVec dim pub.combined_embedding,
               cache ++ [(p, computeVec dim pub.combined_embedding)]) := by
          simp [get_publication_vector, hid, hp, hlk]
        rw [heq]
        refine ⟨computeVec_zeroOrUnit dim _, ?_, ?_, ?_, ?_⟩
        · intro q w hw
          rcases List.mem_append.mp hw with hin | hnew
          · exact hc q w hin
          · have hpair := List.mem_singleton.mp hnew
            have hw2 : w = computeVec dim pub.combined_embedding :=
              congrArg Prod.snd hpair
            rw [hw2]
            exact computeVec_zeroOrUnit dim _
        · intro q hq _ w hw
          injection hq with hq
          subst hq
          rw [hlk] at hw
          exact Option.noConfusion hw
        · intro ht
          simp [truthy, hp] at ht
        · intro q hq _ _
          injection hq with hq
          subst hq
          rfl

/-- Concrete instantiation of the C10 theorem: dimension 2, an empty cache and
a document with id `"a"` and embedding `[1, 0]`. -/
theorem C10_witness :
    (∀ p v, (p, v) ∈ ([] : VCache) → zeroOrUnit v)
    ∧ (zeroOrUnit (get_publication_vector 2 []
          ⟨some "a", some [some 1, some 0], none, none, none⟩).1
       ∧ (∀ p v, (p, v) ∈ (get_publication_vector 2 []
            ⟨some "a", some [some 1, some 0], none, none, none⟩).2 → zeroOrUnit v)
       ∧ (∀ p, (some "a" : Option String) = some p → p ≠ "" →
            ∀ v, ([] : VCache).lookup p = some v →
            get_publication_vector 2 [] ⟨some "a", some [some 1, some 0], none, none, none⟩
              = (v, []))
       ∧ (truthy (some "a") = false →
            (get_publication_vector 2 []
              ⟨some "a", some [some 1, some 0], none, none, none⟩).2 = [])
       ∧ (∀ p, (some "a" : Option String) = some p → p ≠ "" →
            ([] : VCache).lookup p = none →
            (get_publication_vector 2 []
              ⟨some "a", some [some 1, some 0], none, none, none⟩).2
              = [] ++ [(p, (get_publication_vector 2 []
                  ⟨some "a", some [some 1, some 0], none, none, none⟩).1)])) :=
  ⟨by simp,
   C10_get_publication_vector_invariants 2 []
     ⟨some "a", some [some 1, some 0], none, none, none⟩ (by simp)⟩

/-- Opaque models of the external numeric libraries.  A field returning
`Option` models a call that can raise (`none` = exception). -/
structure Oracles where
  kmeansFit : ℤ → ℕ → ℕ → List NVec → Option (List ℤ)
  hierFit : ℤ → String → List NVec → Option (List ℤ)
  silhouette : List NVec → List ℤ → Option ℚ
  calinski : List NVec → List ℤ → Option ℚ
  davies : List NVec → List ℤ → Option ℚ
  pcaFit : ℕ → List NVec → List NVec
  pcaVarFracs : ℕ → List NVec → List ℚ
  viz : List NVec → List (List ℚ)
  hdbscanAvailable : Bool
  hdbscanFit : ℤ → List NVec → Option (List ℤ)

/-- Python `max` of a nonempty float list (0 as an unused default). -/
def listMax : List ℚ → ℚ
  | [] => 0
  | x :: xs => xs.foldl max x

/-- Python `min` of a nonempty float list (0 as an unused default). -/
def listMin : List ℚ → ℚ
  | [] => 0
  | x :: xs => xs.foldl min x

/-- `list(range(a, b + 1))` over integers. -/
def intRange (a b : ℤ) : List ℤ :=
  (List.range (b + 1 - a).toNat).map (fun i : ℕ => a + (i : ℤ))

/-- `len(np.unique(labels))`. -/
def distinctCount (l : List ℤ) : ℕ := l.dedup.length

/-- `np.argmax`: index of the first occurrence of the maximum (0 on empty).
The head wins unless some later element is strictly larger. -/
def argmaxList : List ℚ → ℕ
  | [] => 0
  | x :: xs =>
    match xs with
    | [] => 0
    | _ :: _ =>
      let j := argmaxList xs
      if x < xs.getD j 0 then j + 1 else 0

/-- Silhouette normalisation of `optimize_n_clusters` (adaptive_clustering.py
lines 132-136): min-max when the range is nontrivial, sentinels (`s > -1`
fails) to 0, and all non-sentinel entries to 1 when max = min. -/
def normSilhouette (l : List ℚ) : List ℚ :=
  if listMin l < listMax l then
    l.map (fun s => if -1 < s then (s - listMin l) / (listMax l - listMin l) else 0)
  else
    l.map (fun s => if -1 < s then 1 else 0)

/-- Calinski-Harabasz normalisation (lines 138-141): division by the maximum
(the inner `if max(ch_scores) > 0` of the comprehension is kept verbatim). -/
def normCalinski (l : List ℚ) : List ℚ :=
  if 0 < listMax l then
    l.map (fun c => if 0 < listMax l then c / listMax l else 0)
  else
    List.replicate l.length 0

/-- The finite entries of a Davies-Bouldin list (`none` = `float('inf')`). -/
def finiteVals (l : List (Option ℚ)) : List ℚ := l.filterMap id

/-- Davies-Bouldin normalisation (lines 143-148).  `min(db) < inf` iff some
entry is finite; the entry condition is `d < inf and max(db) > min(db)`.  When
another entry is `inf`, `max(db) = inf` makes the condition true and the IEEE
quotient `(d - min) / inf` equal to `0.0`, so every finite entry maps to 1. -/
def normDavies (l : List (Option ℚ)) : List ℚ :=
  if finiteVals l = [] then List.replicate l.length 0
  else
    let mn := listMin (finiteVals l)
    l.map (fun d =>
      match d with
      | none => 0
      | some dv =>
        if l.any (fun e => e.isNone) then 1
        else if mn < listMax (finiteVals l) then
          1 - (dv - mn) / (listMax (finiteVals l) - mn)
        else 0)

/-- One candidate of the sweep: the rows it appends to `labels_list`
(two rows when a metric call raised after `labels_list.append(labels)`,
source lines 107 and 130), plus its three recorded scores. -/
structure SweepEntry where
  labsApp : List (List ℤ)
  sil : ℚ
  cal : ℚ
  dav : Option ℚ

/-- `np.zeros(n)` as a label row. -/
def zerosLab (n : ℕ) : List ℤ := List.replicate n 0

/-- Lines 107-130 of adaptive_clustering.py, after a labelling was obtained:
with at least two distinct labels the three metrics are recorded (a raising
metric call lands in the `except` branch, appending sentinel scores and a
second, zero, label row); otherwise the sentinels (-1, 0, inf) are recorded. -/
def scoreLabels (O : Oracles) (X : List NVec) (labels : List ℤ) : SweepEntry :=
  if 1 < distinctCount labels then
    match O.silhouette X labels, O.calinski X labels, O.davies X labels with
    | some s, some c, some d => ⟨[labels], s, c, some d⟩
    | _, _, _ => ⟨[labels, zerosLab X.length], -1, 0, none⟩
  else ⟨[labels], -1, 0, none⟩

/-- One linkage sub-run of the hierarchical sweep (lines 75-89): a raised fit
or silhouette gives score -1 with a zero labelling, a collapsed labelling
gives score -1 with its labels. -/
def hierSub (O : Oracles) (X : List NVec) (k : ℤ) (linkage : String) :
    ℚ × List ℤ :=
  match O.hierFit k linkage X with
  | none => (-1, zerosLab X.length)
  | some sl =>
    if 1 < distinctCount sl then
      match O.silhouette X sl with
      | some s => (s, sl)
      | none => (-1, zerosLab X.length)
    else (-1, sl)

/-- The body of the `for n_clusters in range(...)` loop for one candidate k.
`method == "kmeans"` uses `KMeans(k, n_init=20, max_iter=500)`; hierarchical
tries the three linkages and keeps the best sub-silhouette (first maximum);
any other method uses `KMeans(k, n_init=10)` (max_iter defaults to 300).
A raising fit is caught by the outer `except` (sentinel scores, zero row). -/
def sweepEntry (O : Oracles) (X : List NVec) (method : String) (k : ℤ) :
    SweepEntry :=
  if method = "kmeans" then
    match O.kmeansFit k 20 500 X with
    | none => ⟨[zerosLab X.length], -1, 0, none⟩
    | some labels => scoreLabels O X labels
  else if method = "hierarchical" then
    let subs := ["ward", "complete", "average"].map (hierSub O X k)
    let bi := argmaxList (subs.map Prod.fst)
    scoreLabels O X ((subs.map Prod.snd).getD bi [])
  else
    match O.kmeansFit k 10 300 X with
    | none => ⟨[zerosLab X.length], -1, 0, none⟩
    | some labels => scoreLabels O X labels

/-- `self.scores_history` as recorded at the end of `optimize_n_clusters`. -/
structure ScoresHistory where
  n_clusters_range : List ℤ
  silhouette : List ℚ
  calinski_harabasz : List ℚ
  davies_bouldin : List (Option ℚ)
  composite : List ℚ
  adjusted_scores : List ℚ

/-- The range guards of `optimize_n_clusters` (lines 50-55):
`max_clusters = min(max_clusters, n // 5, 20)`,
`min_clusters = min(min_clusters, max_clusters - 1)`, and the reset branch
`(2, max(3, min(n // 5, 20)))` when `min_clusters >= max_clusters`. -/
def clampClusterRange (n : ℕ) (minClusters maxClusters : ℤ) : ℤ × ℤ :=
  let maxC := min (min maxClusters ((n : ℤ) / 5)) 20
  let minC := min minClusters (maxC - 1)
  if minC ≥ maxC then (2, max 3 (min ((n : ℤ) / 5) 20))
  else (minC, maxC)

/-- `0.6 * norm_sil + 0.25 * norm_ch + 0.15 * norm_db`. -/
def composite3 (ns nc nd : ℚ) : ℚ :=
  (6 / 10) * ns + (25 / 100) * nc + (15 / 100) * nd

/-- Ternary `zip` used for the composite scores. -/
def zipWith3 (f : ℚ → ℚ → ℚ → ℚ) : List ℚ → List ℚ → List ℚ → List ℚ
  | a :: as, b :: bs, c :: cs => f a b c :: zipWith3 f as bs cs
  | _, _, _ => []

/-- The clamped candidate list `list(range(min_clusters, max_clusters + 1))`. -/
def sweepKs (n : ℕ) (minClusters maxClusters : ℤ) : List ℤ :=
  intRange (clampClusterRange n minClusters maxClusters).1
    (clampClusterRange n minClusters maxClusters).2

/-- The per-candidate sweep results, in candidate order. -/
def sweepEntries (O : Oracles) (X : List NVec) (method : String)
    (minClusters maxClusters : ℤ) : List SweepEntry :=
  (sweepKs X.length minClusters maxClusters).map (sweepEntry O X method)

/-- The composite scores: normalise the three metric lists and blend them. -/
def sweepComposite (entries : List SweepEntry) : List ℚ :=
  zipWith3 composite3 (normSilhouette (entries.map SweepEntry.sil))
    (normCalinski (entries.map SweepEntry.cal))
    (normDavies (entries.map SweepEntry.dav))

/-- The adjusted scores: `score - 0.01 * (i + min_clusters)` for the i-th
candidate of the sweep. -/
def sweepAdjusted (minC : ℤ) (comps : List ℚ) : List ℚ :=
  comps.enum.map (fun p => p.2 - (1 / 100) * ((p.1 : ℚ) + (minC : ℚ)))

/-- `AdaptiveClusteringOptimizer.optimize_n_clusters`: clamp the range, sweep
every candidate k, normalise the three metric lists, blend them, apply the
penalty `0.01 * (i + min_clusters)` for the i-th candidate, and return the
first-argmax candidate with its recorded labelling and the sweep history. -/
def optimize_n_clusters (O : Oracles) (X : List NVec)
    (minClusters maxClusters : ℤ) (method : String) :
    ℤ × List ℤ × ScoresHistory :=
  let minC := (clampClusterRange X.length minClusters maxClusters).1
  let ks := sweepKs X.length minClusters maxClusters
  let entries := sweepEntries O X method minClusters maxClusters
  let labelsList := (entries.map SweepEntry.labsApp).flatten
  let comps := sweepComposite entries
  let adjs := sweepAdjusted minC comps
  let bi := argmaxList adjs
  (minC + (bi : ℤ), labelsList.getD bi [],
   ⟨ks, entries.map SweepEntry.sil, entries.map SweepEntry.cal,
    entries.map SweepEntry.dav, comps, adjs⟩)

lemma clampClusterRange_lt (n : ℕ) (minClusters maxClusters : ℤ) :
    let maxC := min (min maxClusters ((n : ℤ) / 5)) 20
    let minC := min minClusters (maxC - 1)
    minC < maxC := by
  intro maxC minC
  calc minC ≤ maxC - 1 := min_le_right _ _
    _ < maxC := by omega

lemma clampClusterRange_eq (n : ℕ) (minClusters maxClusters : ℤ) :
    clampClusterRange n minClusters maxClusters =
      (min minClusters (min (min maxClusters ((n : ℤ) / 5)) 20 - 1),
       min (min maxClusters ((n : ℤ) / 5)) 20) := by
  have h := clampClusterRange_lt n minClusters maxClusters
  simp only at h
  simp [clampClusterRange, not_le.mpr h, le_of_lt h]

/-- C2: the swept range of `optimize_n_clusters` is exactly the claimed
clamping — `maxK := min(maxK, n // 5, 20)`, then `minK := min(minK, maxK-1)`,
with a reset to `(2, max(3, n // 5))` whenever `minK ≥ maxK` afterwards.  The
second clamp forces `minK ≤ maxK - 1 < maxK`, so the reset condition never
holds (in the claim or in the source, whose reset constant caps `n // 5` at
20) and the claimed formula agrees with the code on every input. -/
theorem C2_cluster_range_guards (O : Oracles) (X : List NVec)
    (minK maxK : ℤ) (method : String) :
    (optimize_n_clusters O X minK maxK method).2.2.n_clusters_range =
      (let n : ℤ := (X.length : ℤ)
       let maxC := min (min maxK (n / 5)) 20
       let minC := min minK (maxC - 1)
       if minC ≥ maxC then intRange 2 (max 3 (n / 5))
       else intRange minC maxC) := by
  have h := clampClusterRange_lt X.length minK maxK
  simp only at h
  simp only [optimize_n_clusters, sweepKs, clampClusterRange_eq]
  simp [not_le.mpr h]

lemma foldl_max_le_init (xs : List ℚ) (a : ℚ) : a ≤ xs.foldl max a := by
  induction xs generalizing a with
  | nil => simp
  | cons y ys ih => exact le_trans (le_max_left a y) (ih (max a y))

lemma mem_le_foldl_max (xs : List ℚ) (a : ℚ) {x : ℚ} (h : x ∈ xs) :
    x ≤ xs.foldl max a := by
  induction xs generalizing a with
  | nil => cases h
  | cons y ys ih =>
    rcases List.mem_cons.mp h with rfl | hm
    · exact le_trans (le_max_right a x) (foldl_max_le_init ys (max a x))
    · exact ih (max a y) hm

lemma le_listMax {l : List ℚ} {x : ℚ} (h : x ∈ l) : x ≤ listMax l := by
  match l with
  | [] => cases h
  | y :: ys =>
    rcases List.mem_cons.mp h with rfl | hm
    · exact foldl_max_le_init ys x
    · exact mem_le_foldl_max ys y hm

lemma foldl_min_init_le (xs : List ℚ) (a : ℚ) : xs.foldl min a ≤ a := by
  induction xs generalizing a with
  | nil => simp
  | cons y ys ih => exact le_trans (ih (min a y)) (min_le_left a y)

lemma foldl_min_le_mem (xs : List ℚ) (a : ℚ) {x : ℚ} (h : x ∈ xs) :
    xs.foldl min a ≤ x := by
  induction xs generalizing a with
  | nil => cases h
  | cons y ys ih =>
    rcases List.mem_cons.mp h with rfl | hm
    · exact le_trans (foldl_min_init_le ys (min a x)) (min_le_right a x)
    · exact ih (min a y) hm

lemma listMin_le {l : List ℚ} {x : ℚ} (h : x ∈ l) : listMin l ≤ x := by
  match l with
  | [] => cases h
  | y :: ys =>
    rcases List.mem_cons.mp h with rfl | hm
    · exact foldl_min_init_le ys x
    · exact foldl_min_le_mem ys y hm

lemma getD_map_lt {α β : Type} (f : α → β) (l : List α) {i : ℕ}
    (hi : i < l.length) (da : α) (db : β) :
    (l.map f).getD i db = f (l.getD i da) := by
  rw [List.getD_eq_getElem _ _ (by simpa using hi), List.getD_eq_getElem _ _ hi,
    List.getElem_map]

lemma getD_mem {α : Type} (l : List α) {i : ℕ} (hi : i < l.length) (d : α) :
    l.getD i d ∈ l := by
  rw [List.getD_eq_getElem _ _ hi]
  exact List.getElem_mem hi

lemma getD_replicate_self {α : Type} (n i : ℕ) (d : α) :
    (List.replicate n d).getD i d = d := by
  by_cases h : i < n
  · rw [List.getD_eq_getElem _ _ (by simpa using h)]
    simp
  · exact List.getD_eq_default _ _ (by simpa using not_lt.mp h)

lemma length_normSilhouette (l : List ℚ) :
    (normSilhouette l).length = l.length := by
  unfold normSilhouette
  split <;> simp

lemma length_normCalinski (l : List ℚ) :
    (normCalinski l).length = l.length := by
  unfold normCalinski
  split <;> simp

lemma length_normDavies (l : List (Option ℚ)) :
    (normDavies l).length = l.length := by
  unfold normDavies
  split <;> simp

lemma normSilhouette_getD (sil : List ℚ) {i : ℕ} (hi : i < sil.length) :
    (normSilhouette sil).getD i 0 =
      if listMin sil < listMax sil then
        (if -1 < sil.getD i 0 then
          (sil.getD i 0 - listMin sil) / (listMax sil - listMin sil) else 0)
      else (if -1 < sil.getD i 0 then 1 else 0) := by
  unfold normSilhouette
  split
  · rw [getD_map_lt _ _ hi 0 0]
  · rw [getD_map_lt _ _ hi 0 0]

lemma normCalinski_getD (ch : List ℚ) {i : ℕ} (hi : i < ch.length) :
    (normCalinski ch).getD i 0 =
      if 0 < listMax ch then ch.getD i 0 / listMax ch else 0 := by
  unfold normCalinski
  split
  · rw [getD_map_lt _ _ hi 0 0]
  · exact getD_replicate_self _ _ _

lemma normDavies_getD (db : List (Option ℚ)) {i : ℕ} (hi : i < db.length)
    (hne : finiteVals db ≠ []) :
    (normDavies db).getD i 0 =
      (match db.getD i none with
       | none => 0
       | some dv =>
         if db.any (fun e => e.isNone) then 1
         else if listMin (finiteVals db) < listMax (finiteVals db) then
           1 - (dv - listMin (finiteVals db)) /
             (listMax (finiteVals db) - listMin (finiteVals db))
         else 0) := by
  unfold normDavies
  rw [if_neg hne]
  exact getD_map_lt _ _ hi none 0

/-- The claim's reading of the Calinski-Harabasz normalisation, modelled from
the spec sentence "CH min-max to [0,1] (sentinel→0)"; kept only to compare
with the source's `normCalinski`. -/
def chMinMaxFromSpec (l : List ℚ) : List ℚ :=
  l.map (fun c => if c = 0 then 0 else (c - listMin l) / (listMax l - listMin l))

/-- C3 counterexample: on the score list `[10, 20]` the source normalises
Calinski-Harabasz by dividing by the maximum, giving `[1/2, 1]`, while the
claimed min-max normalisation would give `[0, 1]`. -/
theorem C3_counterexample :
    normCalinski [10, 20] ≠ chMinMaxFromSpec [10, 20] := by
  have hmax : listMax [(10 : ℚ), 20] = 20 := by
    simp [listMax]
    norm_num [max_def]
  have hmin : listMin [(10 : ℚ), 20] = 10 := by
    simp [listMin]
    norm_num [min_def]
  intro h
  have h0 := congrArg (fun l => l.getD 0 0) h
  simp [normCalinski, chMinMaxFromSpec, hmax, hmin] at h0

lemma normDavies_getD_none (db : List (Option ℚ)) {i : ℕ} (hi : i < db.length)
    (hne : finiteVals db ≠ []) (hdi : db.getD i none = none) :
    (normDavies db).getD i 0 = 0 := by
  rw [normDavies_getD db hi hne, hdi]

lemma normDavies_getD_some (db : List (Option ℚ)) {i : ℕ} (hi : i < db.length)
    (hne : finiteVals db ≠ []) {dv : ℚ} (hdi : db.getD i none = some dv) :
    (normDavies db).getD i 0 =
      if db.any (fun e => e.isNone) then 1
      else if listMin (finiteVals db) < listMax (finiteVals db) then
        1 - (dv - listMin (finiteVals db)) /
          (listMax (finiteVals db) - listMin (finiteVals db))
      else 0 := by
  rw [normDavies_getD db hi hne, hdi]

lemma normDavies_all_sentinel {db : List (Option ℚ)} (hfe : finiteVals db = []) :
    normDavies db = List.replicate db.length 0 := by
  unfold normDavies
  rw [if_pos hfe]

/-- C3 (amended): across a sweep, the silhouette scores are min-max normalised
into [0,1] with sentinel entries (score -1, failing `s > -1`) mapped to 0 and
the exact min-max formula applied when the range is nontrivial; the
Calinski-Harabasz scores are normalised by dividing by the maximum (not
min-max), so the sentinel 0 maps to 0 and a nonnegative score list lands in
[0,1] (all 0 when the maximum is not positive); the Davies-Bouldin scores are
inverted min-max normalised with every entry in [0,1], infinite sentinels
mapped to 0, lower raw DB giving a weakly higher normalised value (finite
entries tie at 1 when an infinite sentinel is present), and an all-sentinel
list mapped to all zeros. -/
theorem C3_metric_normalisation (sil ch : List ℚ) (db : List (Option ℚ)) :
    (∀ i, i < sil.length →
      (0 ≤ (normSilhouette sil).getD i 0 ∧ (normSilhouette sil).getD i 0 ≤ 1)
      ∧ (sil.getD i 0 ≤ -1 → (normSilhouette sil).getD i 0 = 0)
      ∧ (listMin sil < listMax sil → -1 < sil.getD i 0 →
          (normSilhouette sil).getD i 0
            = (sil.getD i 0 - listMin sil) / (listMax sil - listMin sil)))
    ∧ (∀ i, i < ch.length →
      (0 < listMax ch → (normCalinski ch).getD i 0 = ch.getD i 0 / listMax ch)
      ∧ (listMax ch ≤ 0 → (normCalinski ch).getD i 0 = 0)
      ∧ (ch.getD i 0 = 0 → (normCalinski ch).getD i 0 = 0)
      ∧ ((∀ x ∈ ch, 0 ≤ x) →
          0 ≤ (normCalinski ch).getD i 0 ∧ (normCalinski ch).getD i 0 ≤ 1))
    ∧ ((finiteVals db = [] → normDavies db = List.replicate db.length 0)
      ∧ (∀ i, i < db.length →
          (0 ≤ (normDavies db).getD i 0 ∧ (normDavies db).getD i 0 ≤ 1)
          ∧ (db.getD i none = none → (normDavies db).getD i 0 = 0))
      ∧ (∀ i j x y, i < db.length → j < db.length →
          db.getD i none = some x → db.getD j none = some y → x ≤ y →
          (normDavies db).getD j 0 ≤ (normDavies db).getD i 0)) := by
  refine ⟨?_, ?_, fun hfe => normDavies_all_sentinel hfe, ?_, ?_⟩
  · intro i hi
    have hmem : sil.getD i 0 ∈ sil := getD_mem sil hi 0
    have hmn : listMin sil ≤ sil.getD i 0 := listMin_le hmem
    have hmx : sil.getD i 0 ≤ listMax sil := le_listMax hmem
    rw [normSilhouette_getD sil hi]
    by_cases hspread : listMin sil < listMax sil
    · rw [if_pos hspread]
      by_cases hs : -1 < sil.getD i 0
      · rw [if_pos hs]
        have hd : 0 < listMax sil - listMin sil := sub_pos.mpr hspread
        refine ⟨⟨div_nonneg (by linarith) (le_of_lt hd), ?_⟩, ?_, ?_⟩
        · rw [div_le_one hd]
          linarith
        · intro hle
          linarith
        · intro _ _
          rfl
      · rw [if_neg hs]
        exact ⟨⟨le_refl 0, by norm_num⟩, fun _ => rfl, fun _ hs2 => absurd hs2 hs⟩
    · rw [if_neg hspread]
      by_cases hs : -1 < sil.getD i 0
      · rw [if_pos hs]
        exact ⟨⟨by norm_num, le_refl 1⟩, fun hle => by linarith,
          fun hsp _ => absurd hsp hspread⟩
      · rw [if_neg hs]
        exact ⟨⟨le_refl 0, by norm_num⟩, fun _ => rfl,
          fun hsp _ => absurd hsp hspread⟩
  · intro i hi
    have hmem : ch.getD i 0 ∈ ch := getD_mem ch hi 0
    have hmx : ch.getD i 0 ≤ listMax ch := le_listMax hmem
    rw [normCalinski_getD ch hi]
    by_cases hpos : 0 < listMax ch
    · rw [if_pos hpos]
      refine ⟨fun _ => rfl, fun hle => absurd hpos (not_lt.mpr hle), ?_, ?_⟩
      · intro h0
        rw [h0, zero_div]
      · intro hnn
        exact ⟨div_nonneg (hnn _ hmem) (le_of_lt hpos), (div_le_one hpos).mpr hmx⟩
    · rw [if_neg hpos]
      exact ⟨fun hp => absurd hp hpos, fun _ => rfl, fun _ => rfl,
        fun _ => ⟨le_refl 0, by norm_num⟩⟩
  · intro i hi
    by_cases hfe : finiteVals db = []
    · rw [normDavies_all_sentinel hfe, getD_replicate_self]
      exact ⟨⟨le_refl 0, by norm_num⟩, fun _ => rfl⟩
    · cases hdi : db.getD i none with
      | none =>
        rw [normDavies_getD_none db hi hfe hdi]
        exact ⟨⟨le_refl 0, by norm_num⟩, fun _ => rfl⟩
      | some dv =>
        have hmem : (some dv) ∈ db := by
          rw [← hdi]
          exact getD_mem db hi none
        have hfv : dv ∈ finiteVals db := List.mem_filterMap.mpr ⟨some dv, hmem, rfl⟩
        have hmn : listMin (finiteVals db) ≤ dv := listMin_le hfv
        have hmx : dv ≤ listMax (finiteVals db) := le_listMax hfv
        rw [normDavies_getD_some db hi hfe hdi]
        refine ⟨?_, fun hcon => Option.noConfusion hcon⟩
        by_cases hinf : db.any (fun e => e.isNone)
        · rw [if_pos hinf]
          exact ⟨by norm_num, le_refl 1⟩
        · rw [if_neg hinf]
          by_cases hlt : listMin (finiteVals db) < listMax (finiteVals db)
          · rw [if_pos hlt]
            have hd : 0 < listMax (finiteVals db) - listMin (finiteVals db) :=
              sub_pos.mpr hlt
            have hq1 : (dv - listMin (finiteVals db)) /
                (listMax (finiteVals db) - listMin (finiteVals db)) ≤ 1 := by
              rw [div_le_one hd]
              linarith
            have hq0 : 0 ≤ (dv - listMin (finiteVals db)) /
                (listMax (finiteVals db) - listMin (finiteVals db)) :=
              div_nonneg (by linarith) (le_of_lt hd)
            constructor <;> linarith
          · rw [if_neg hlt]
            exact ⟨le_refl 0, by norm_num⟩
  · intro i j x y hi hj hdi hdj hxy
    have hmi : (some x) ∈ db := by
      rw [← hdi]
      exact getD_mem db hi none
    have hfi : x ∈ finiteVals db := List.mem_filterMap.mpr ⟨some x, hmi, rfl⟩
    have hfe : finiteVals db ≠ [] := by
      intro h
      rw [h] at hfi
      cases hfi
    have hmj : (some y) ∈ db := by
      rw [← hdj]
      exact getD_mem db hj none
    have hfj : y ∈ finiteVals db := List.mem_filterMap.mpr ⟨some y, hmj, rfl⟩
    rw [normDavies_getD_some db hi hfe hdi, normDavies_getD_some db hj hfe hdj]
    by_cases hinf : db.any (fun e => e.isNone)
    · rw [if_pos hinf, if_pos hinf]
    · rw [if_neg hinf, if_neg hinf]
      by_cases hlt : listMin (finiteVals db) < listMax (finiteVals db)
      · rw [if_pos hlt, if_pos hlt]
        have hd : 0 < listMax (finiteVals db) - listMin (finiteVals db) :=
          sub_pos.mpr hlt
        have hdiv : (x - listMin (finiteVals db)) /
            (listMax (finiteVals db) - listMin (finiteVals db))
            ≤ (y - listMin (finiteVals db)) /
            (listMax (finiteVals db) - listMin (finiteVals db)) :=
          (div_le_div_iff_of_pos_right hd).mpr (by linarith)
        linarith
      · rw [if_neg hlt, if_neg hlt]

/-- Concrete instantiation of the C3 theorem on the sweep lists
`sil = [-1, 1/2]`, `ch = [10, 20]`, `db = [inf, 1]`. -/
theorem C3_metric_normalisation_witness :
    (normSilhouette [-1, (1 : ℚ) / 2]).getD 0 0 = 0
    ∧ (normCalinski [(10 : ℚ), 20]).getD 1 0
        = ([(10 : ℚ), 20].getD 1 0) / listMax [(10 : ℚ), 20]
    ∧ (normDavies [none, some (1 : ℚ)]).getD 0 0 = 0 := by
  have h := C3_metric_normalisation [-1, (1 : ℚ) / 2] [(10 : ℚ), 20]
    [none, some (1 : ℚ)]
  refine ⟨?_, ?_, ?_⟩
  · exact (h.1 0 (by norm_num)).2.1 (by norm_num)
  · exact (h.2.1 1 (by norm_num)).1
      (lt_of_lt_of_le (show (0 : ℚ) < 20 by norm_num) (le_listMax (by simp)))
  · exact (h.2.2.2.1 0 (by norm_num)).2 rfl

lemma length_zipWith3 (f : ℚ → ℚ → ℚ → ℚ) (a b c : List ℚ) :
    (zipWith3 f a b c).length = min a.length (min b.length c.length) := by
  induction a generalizing b c with
  | nil => cases b <;> cases c <;> simp [zipWith3]
  | cons x as ih =>
    cases b with
    | nil => simp [zipWith3]
    | cons y bs =>
      cases c with
      | nil => simp [zipWith3]
      | cons z cs =>
        simp only [zipWith3, List.length_cons, ih]
        omega

lemma getD_enum_map (g : ℕ × ℚ → ℚ) (l : List ℚ) {i : ℕ} (hi : i < l.length)
    (d : ℚ) :
    (l.enum.map g).getD i d = g (i, l.getD i 0) := by
  have h1 : i < l.enum.length := by simpa using hi
  rw [getD_map_lt g l.enum h1 (0, 0) d]
  rw [List.getD_eq_getElem _ _ h1, List.getElem_enum, ← List.getD_eq_getElem l _ hi]

lemma length_intRange (a b : ℤ) : (intRange a b).length = (b + 1 - a).toNat := by
  simp [intRange]

lemma getD_intRange (a b : ℤ) {i : ℕ} (hi : i < (intRange a b).length) :
    (intRange a b).getD i 0 = a + (i : ℤ) := by
  rw [length_intRange] at hi
  unfold intRange
  rw [getD_map_lt _ _ (by simpa using hi) 0 0]
  congr 1
  rw [List.getD_eq_getElem _ _ (by simpa using hi)]
  simp

lemma intRange_ne_nil {a b : ℤ} (h : a < b) : intRange a b ≠ [] := by
  intro hcon
  have := congrArg List.length hcon
  rw [length_intRange] at this
  simp at this
  omega

lemma argmaxList_lt_length : ∀ (l : List ℚ), l ≠ [] → argmaxList l < l.length
  | [], h => absurd rfl h
  | [_], _ => by simp [argmaxList]
  | x :: y :: ys, _ => by
    have ih := argmaxList_lt_length (y :: ys) (by simp)
    unfold argmaxList
    by_cases hx : x < (y :: ys).getD (argmaxList (y :: ys)) 0
    · simp only [hx, if_true]
      simpa using ih
    · simp only [hx, if_false]
      simp

lemma argmaxList_le : ∀ (l : List ℚ) (j : ℕ), j < l.length →
    l.getD j 0 ≤ l.getD (argmaxList l) 0
  | [], _, hj => by simp at hj
  | [x], j, hj => by
    have hj0 : j = 0 := by simpa using hj
    subst hj0
    simp [argmaxList]
  | x :: y :: ys, j, hj => by
    have ih := fun j hj => argmaxList_le (y :: ys) j hj
    unfold argmaxList
    by_cases hx : x < (y :: ys).getD (argmaxList (y :: ys)) 0
    · simp only [hx, if_true]
      match j with
      | 0 => exact le_of_lt hx
      | j + 1 =>
        rw [List.getD_cons_succ, List.getD_cons_succ]
        exact ih j (by simpa using hj)
    · simp only [hx, if_false]
      match j with
      | 0 => exact le_refl _
      | j + 1 =>
        rw [List.getD_cons_succ, List.getD_cons_zero]
        exact le_trans (ih j (by simpa using hj)) (not_lt.mp hx)

lemma argmaxList_first : ∀ (l : List ℚ) (j : ℕ), j < argmaxList l →
    l.getD j 0 < l.getD (argmaxList l) 0
  | [], _, hj => by simp [argmaxList] at hj
  | [x], _, hj => by simp [argmaxList] at hj
  | x :: y :: ys, j, hj => by
    have ih := fun j hj => argmaxList_first (y :: ys) j hj
    unfold argmaxList at hj ⊢
    by_cases hx : x < (y :: ys).getD (argmaxList (y :: ys)) 0
    · simp only [hx, if_true] at hj ⊢
      match j with
      | 0 => exact hx
      | j + 1 =>
        rw [List.getD_cons_succ, List.getD_cons_succ]
        exact ih j (by omega)
    · simp only [hx, if_false] at hj
      omega

lemma flatten_map_singleton {α β : Type} (L : List α) (f : α → List β) (d : β)
    (h : ∀ e ∈ L, (f e).length = 1) :
    (L.map f).flatten = L.map (fun e => (f e).headD d) := by
  induction L with
  | nil => simp
  | cons e es ih =>
    simp only [List.map_cons, List.flatten_cons]
    have h1 := h e (List.mem_cons_self e es)
    match hf : f e with
    | [a] =>
      simp only [hf, List.headD_cons, List.singleton_append]
      rw [ih (fun x hx => h x (List.mem_cons_of_mem _ hx))]
    | [] =>
      rw [hf] at h1
      simp at h1
    | a :: b :: t =>
      rw [hf] at h1
      simp at h1

lemma optimize_adjusted_eq (O : Oracles) (X : List NVec) (minK maxK : ℤ)
    (method : String) :
    (optimize_n_clusters O X minK maxK method).2.2.adjusted_scores =
      sweepAdjusted (clampClusterRange X.length minK maxK).1
        (sweepComposite (sweepEntries O X method minK maxK)) := rfl

lemma optimize_composite_eq (O : Oracles) (X : List NVec) (minK maxK : ℤ)
    (method : String) :
    (optimize_n_clusters O X minK maxK method).2.2.composite =
      sweepComposite (sweepEntries O X method minK maxK) := rfl

lemma optimize_range_eq (O : Oracles) (X : List NVec) (minK maxK : ℤ)
    (method : String) :
    (optimize_n_clusters O X minK maxK method).2.2.n_clusters_range =
      sweepKs X.length minK maxK := rfl

lemma optimize_k_eq (O : Oracles) (X : List NVec) (minK maxK : ℤ)
    (method : String) :
    (optimize_n_clusters O X minK maxK method).1 =
      (clampClusterRange X.length minK maxK).1 +
        (argmaxList (optimize_n_clusters O X minK maxK method).2.2.adjusted_scores
          : ℤ) := rfl

lemma optimize_labels_eq (O : Oracles) (X : List NVec) (minK maxK : ℤ)
    (method : String) :
    (optimize_n_clusters O X minK maxK method).2.1 =
      ((sweepEntries O X method minK maxK).map SweepEntry.labsApp).flatten.getD
        (argmaxList (optimize_n_clusters O X minK maxK method).2.2.adjusted_scores)
        [] := rfl

lemma length_sweepComposite (entries : List SweepEntry) :
    (sweepComposite entries).length = entries.length := by
  unfold sweepComposite
  rw [length_zipWith3, length_normSilhouette, length_normCalinski,
    length_normDavies]
  simp

lemma length_sweepAdjusted (minC : ℤ) (comps : List ℚ) :
    (sweepAdjusted minC comps).length = comps.length := by
  simp [sweepAdjusted]

lemma length_sweepEntries (O : Oracles) (X : List NVec) (method : String)
    (minK maxK : ℤ) :
    (sweepEntries O X method minK maxK).length
      = (sweepKs X.length minK maxK).length := by
  simp [sweepEntries]

lemma sweepKs_length_pos (n : ℕ) (minK maxK : ℤ) :
    0 < (sweepKs n minK maxK).length := by
  unfold sweepKs
  rw [length_intRange]
  have h := clampClusterRange_lt n minK maxK
  simp only at h
  rw [clampClusterRange_eq]
  omega

/-- C4 (amended): for every sweep, the recorded adjusted score of the i-th
candidate (candidate k = minK + i after clamping) equals
`composite(i) - 0.01 * (i + minK)`, i.e. `composite(k) - 0.01 * k` — the
penalty multiplies the absolute candidate count k, not the offset k − minK
as claimed (the two differ by the constant 0.01 * minK, so the argmax and
hence k* are unchanged); the returned k* is minK plus the index of the first
maximum of the adjusted scores (strictly larger than every earlier entry,
at least as large as every entry, so ties break toward smaller k); and when
every candidate appended exactly one labels row (no metric call raised), the
returned labelling is exactly the row the sweep recorded for k*. -/
theorem C4_adjusted_penalty_and_argmax (O : Oracles) (X : List NVec)
    (minK maxK : ℤ) (method : String)
    (hone : ∀ k ∈ (optimize_n_clusters O X minK maxK method).2.2.n_clusters_range,
      (sweepEntry O X method k).labsApp.length = 1) :
    (∀ i, i < (optimize_n_clusters O X minK maxK method).2.2.adjusted_scores.length →
      (optimize_n_clusters O X minK maxK method).2.2.adjusted_scores.getD i 0
        = (optimize_n_clusters O X minK maxK method).2.2.composite.getD i 0
          - (1 / 100) * ((i : ℚ)
            + (((clampClusterRange X.length minK maxK).1 : ℤ) : ℚ)))
    ∧ (optimize_n_clusters O X minK maxK method).1
        = (clampClusterRange X.length minK maxK).1
          + (argmaxList
              (optimize_n_clusters O X minK maxK method).2.2.adjusted_scores : ℤ)
    ∧ (∀ j, j < argmaxList
          (optimize_n_clusters O X minK maxK method).2.2.adjusted_scores →
        (optimize_n_clusters O X minK maxK method).2.2.adjusted_scores.getD j 0
          < (optimize_n_clusters O X minK maxK method).2.2.adjusted_scores.getD
            (argmaxList
              (optimize_n_clusters O X minK maxK method).2.2.adjusted_scores) 0)
    ∧ (∀ j, j < (optimize_n_clusters O X minK maxK method).2.2.adjusted_scores.length →
        (optimize_n_clusters O X minK maxK method).2.2.adjusted_scores.getD j 0
          ≤ (optimize_n_clusters O X minK maxK method).2.2.adjusted_scores.getD
            (argmaxList
              (optimize_n_clusters O X minK maxK method).2.2.adjusted_scores) 0)
    ∧ (optimize_n_clusters O X minK maxK method).2.1
        = (sweepEntry O X method
            (optimize_n_clusters O X minK maxK method).1).labsApp.headD []
    ∧ (optimize_n_clusters O X minK maxK method).2.2.adjusted_scores.length
        = (optimize_n_clusters O X minK maxK method).2.2.n_clusters_range.length
    ∧ 0 < (optimize_n_clusters O X minK maxK method).2.2.n_clusters_range.length := by
  have hlenA : (optimize_n_clusters O X minK maxK method).2.2.adjusted_scores.length
      = (sweepKs X.length minK maxK).length := by
    rw [optimize_adjusted_eq, length_sweepAdjusted, length_sweepComposite,
      length_sweepEntries]
  have hlenC : (sweepComposite (sweepEntries O X method minK maxK)).length
      = (sweepKs X.length minK maxK).length := by
    rw [length_sweepComposite, length_sweepEntries]
  have hpos := sweepKs_length_pos X.length minK maxK
  refine ⟨?_, optimize_k_eq O X minK maxK method, ?_, ?_, ?_, ?_, ?_⟩
  · intro i hi
    rw [optimize_adjusted_eq, optimize_composite_eq]
    rw [optimize_adjusted_eq, length_sweepAdjusted] at hi
    unfold sweepAdjusted
    rw [getD_enum_map _ _ hi 0]
  · intro j hj
    exact argmaxList_first _ j hj
  · intro j hj
    exact argmaxList_le _ j hj
  · have hone2 : ∀ e ∈ sweepEntries O X method minK maxK, e.labsApp.length = 1 := by
      intro e he
      rcases List.mem_map.mp he with ⟨k, hk, rfl⟩
      exact hone k hk
    have hbi : argmaxList (optimize_n_clusters O X minK maxK method).2.2.adjusted_scores
        < (sweepKs X.length minK maxK).length := by
      rw [← hlenA]
      apply argmaxList_lt_length
      intro hnil
      rw [hnil] at hlenA
      simp at hlenA
      omega
    rw [optimize_labels_eq,
      flatten_map_singleton (sweepEntries O X method minK maxK)
        SweepEntry.labsApp [] hone2]
    rw [getD_map_lt (fun e => e.labsApp.headD [])
      (sweepEntries O X method minK maxK)
      (by rw [length_sweepEntries]; exact hbi) ⟨[], -1, 0, none⟩ []]
    unfold sweepEntries
    rw [getD_map_lt (sweepEntry O X method) (sweepKs X.length minK maxK) hbi 0
      ⟨[], -1, 0, none⟩]
    rw [optimize_k_eq]
    unfold sweepKs
    rw [getD_intRange]
    rw [← sweepKs]
    exact hbi
  · rw [hlenA, optimize_range_eq]
  · rw [optimize_range_eq]
    exact hpos

lemma sweepAdjusted_getD (minC : ℤ) (comps : List ℚ) {i : ℕ}
    (hi : i < comps.length) :
    (sweepAdjusted minC comps).getD i 0
      = comps.getD i 0 - (1 / 100) * ((i : ℚ) + ((minC : ℤ) : ℚ)) := by
  unfold sweepAdjusted
  rw [getD_enum_map _ _ hi 0]

/-- A concrete oracle bundle whose clustering calls always return the all-zero
labelling and whose metric calls return constants; consistent with sklearn on
degenerate data (any fixed behaviour of the external library instantiates the
oracle-parametric theorems). -/
def oracleZ : Oracles where
  kmeansFit := fun _ _ _ X => some (zerosLab X.length)
  hierFit := fun _ _ X => some (zerosLab X.length)
  silhouette := fun _ _ => some 0
  calinski := fun _ _ => some 0
  davies := fun _ _ => some 0
  pcaFit := fun _ X => X
  pcaVarFracs := fun _ _ => []
  viz := fun X => X.map (fun _ => [0, 0])
  hdbscanAvailable := false
  hdbscanFit := fun _ X => some (zerosLab X.length)

/-- Ten one-dimensional unit documents-worth of vectors. -/
def X10 : List NVec := List.replicate 10 ⟨[1], false⟩

/-- C4 counterexample: on a 10-row input with requested range (2, 2) the clamp
gives minK = 1, and the recorded adjusted scores differ from the claimed
`composite(k) - 0.01 * (k - minK)` (the code subtracts `0.01 * k` instead):
at the first candidate the claimed formula subtracts nothing while the code
subtracts 0.01 * 1. -/
theorem C4_counterexample :
    (optimize_n_clusters oracleZ X10 2 2 "kmeans").2.2.adjusted_scores ≠
      (optimize_n_clusters oracleZ X10 2 2 "kmeans").2.2.composite.enum.map
        (fun p => p.2 - (1 / 100) * (p.1 : ℚ)) := by
  intro heq
  have hposC : 0 < (optimize_n_clusters oracleZ X10 2 2 "kmeans").2.2.composite.length := by
    rw [optimize_composite_eq, length_sweepComposite, length_sweepEntries]
    exact sweepKs_length_pos X10.length 2 2
  have hminC : (clampClusterRange X10.length 2 2).1 = 1 := by decide
  have h0 : (optimize_n_clusters oracleZ X10 2 2 "kmeans").2.2.adjusted_scores.getD 0 0
      = (optimize_n_clusters oracleZ X10 2 2 "kmeans").2.2.composite.getD 0 0
        - (1 / 100) * ((0 : ℚ) + 1) := by
    rw [optimize_adjusted_eq, ← optimize_composite_eq,
      sweepAdjusted_getD _ _ hposC, hminC]
    norm_num
  have h1 : ((optimize_n_clusters oracleZ X10 2 2 "kmeans").2.2.composite.enum.map
      (fun p => p.2 - (1 / 100) * (p.1 : ℚ))).getD 0 0
      = (optimize_n_clusters oracleZ X10 2 2 "kmeans").2.2.composite.getD 0 0
        - (1 / 100) * ((0 : ℕ) : ℚ) := by
    rw [getD_enum_map _ _ hposC 0]
  rw [heq, h1] at h0
  norm_num at h0
  linarith

/-- Concrete instantiation of the C4 theorem: the trivial oracle on ten rows
with requested range (2, 2); every candidate records exactly one labels row,
and the returned k* is minK plus the argmax index. -/
theorem C4_adjusted_penalty_and_argmax_witness :
    (optimize_n_clusters oracleZ X10 2 2 "kmeans").1
      = (clampClusterRange X10.length 2 2).1
        + (argmaxList
            (optimize_n_clusters oracleZ X10 2 2 "kmeans").2.2.adjusted_scores : ℤ)
    ∧ (optimize_n_clusters oracleZ X10 2 2 "kmeans").2.1
        = (sweepEntry oracleZ X10 "kmeans"
            (optimize_n_clusters oracleZ X10 2 2 "kmeans").1).labsApp.headD []
    ∧ 0 < (optimize_n_clusters oracleZ X10 2 2 "kmeans").2.2.n_clusters_range.length := by
  have hone : ∀ k ∈ (optimize_n_clusters oracleZ X10 2 2 "kmeans").2.2.n_clusters_range,
      (sweepEntry oracleZ X10 "kmeans" k).labsApp.length = 1 := by
    have hr : (optimize_n_clusters oracleZ X10 2 2 "kmeans").2.2.n_clusters_range
        = [1, 2] := by decide
    intro k hk
    rw [hr] at hk
    simp at hk
    rcases hk with rfl | rfl
    · rfl
    · rfl
  have h := C4_adjusted_penalty_and_argmax oracleZ X10 2 2 "kmeans" hone
  exact ⟨h.2.1, h.2.2.2.2.1, h.2.2.2.2.2.2⟩

/-- `np.cumsum` accumulator. -/
def cumsumAux (acc : ℚ) : List ℚ → List ℚ
  | [] => []
  | x :: xs => (acc + x) :: cumsumAux (acc + x) xs

/-- `np.cumsum`. -/
def cumsum (l : List ℚ) : List ℚ := cumsumAux 0 l

/-- `np.argmax` over a boolean array: index of the first True, 0 when none. -/
def firstTrueIdx (l : List Bool) : ℕ :=
  match l.findIdx? id with
  | some i => i
  | none => 0

/-- `AdaptiveClusteringOptimizer.optimize_pca_dimensions`: identity when the
feature count is at most 50, else fit PCA with `min(n_samples, n_features,
max_dims)` components, take the first prefix whose cumulative explained
variance crosses the threshold (at least 2), and project when that is fewer
dimensions than the input has. -/
def optimize_pca_dimensions (O : Oracles) (X : List NVec)
    (varianceThreshold : ℚ) (maxDims : ℕ) : ℕ × List NVec :=
  let nSamples := X.length
  let nFeatures := (X.headD (zeroVec 0)).raw.length
  if nFeatures ≤ 50 then (nFeatures, X)
  else
    let maxPossibleDims := min (min nSamples nFeatures) maxDims
    let cumulative := cumsum (O.pcaVarFracs maxPossibleDims X)
    let optimalDims :=
      max (firstTrueIdx (cumulative.map (fun c => varianceThreshold ≤ c)) + 1) 2
    if optimalDims < nFeatures then (optimalDims, O.pcaFit optimalDims X)
    else (nFeatures, X)

/-- The triple `(labels, n_clusters, method_name)` returned by
`_run_clustering`, together with the warnings logged while producing it and
the `metrics_history` the adaptive path stores on the instance. -/
structure RunResult where
  labels : List ℤ
  nClusters : ℤ
  methodName : String
  warnings : List String
  history : Option ScoresHistory

/-- The adaptive branch of `_run_clustering` (lines 186-217): PCA-optimise,
derive the k range with its own guard (`(2, max(3, 2))` on reset), run the
sweep and report its history.  The method-name suffix with the exact PCA
dimension and variance percentage is abbreviated to a fixed marker. -/
def adaptivePath (O : Oracles) (actualMethod : String) (X : List NVec)
    (kMax : ℤ) : RunResult :=
  let pr := optimize_pca_dimensions O X (9 / 10) 100
  let Xred := pr.2
  let minK := max 2 (min (kMax - 1) 3)
  let maxK := min kMax ((Nat.sqrt Xred.length : ℕ) : ℤ)
  let p := if minK ≥ maxK then ((2 : ℤ), (3 : ℤ)) else (minK, maxK)
  let r := optimize_n_clusters O Xred p.1 p.2 actualMethod
  let baseName := actualMethod ++ "_adaptive"
  let methodName := if pr.1 < (X.headD (zeroVec 0)).raw.length
    then baseName ++ " (PCA reduced)" else baseName
  ⟨r.2.1, r.1, methodName, [], some r.2.2⟩

/-- The explicit kmeans branch (lines 220-230): reduce to `n_dims` features
when wider, `k = min(k_max, max(2, isqrt(n / 2)))`, a single unguarded fit
(a raising fit propagates). -/
def kmeansPath (O : Oracles) (X : List NVec) (kMax : ℤ) (nDims : ℕ) :
    Option RunResult :=
  let nFeatures := (X.headD (zeroVec 0)).raw.length
  let Xred := if nDims < nFeatures then O.pcaFit nDims X else X
  let k := min kMax (max 2 ((Nat.sqrt (Xred.length / 2) : ℕ) : ℤ))
  match O.kmeansFit k 10 300 Xred with
  | none => none
  | some labels => some ⟨labels, k, "kmeans (PCA)", [], none⟩

/-- The explicit hierarchical branch (lines 232-235): same k formula, ward
linkage, unguarded fit. -/
def hierPath (O : Oracles) (X : List NVec) (kMax : ℤ) : Option RunResult :=
  let k := min kMax (max 2 ((Nat.sqrt (X.length / 2) : ℕ) : ℤ))
  match O.hierFit k "ward" X with
  | none => none
  | some labels => some ⟨labels, k, "hierarchical", [], none⟩

/-- The `logger.warning` text of the unknown-method fallback. -/
def unknownMethodWarning : String :=
  "Unknown clustering method - falling back to kmeans."

/-- The `logger.warning` text of the hdbscan-missing fallback. -/
def hdbscanMissingWarning : String :=
  "hdbscan not installed - falling back to kmeans."

/-- Prepend a logged warning to a run result. -/
def addWarning (w : String) (r : Option RunResult) : Option RunResult :=
  r.map (fun res => { res with warnings := w :: res.warnings })

/-- `PublicationClustering._run_clustering`.  Both fallbacks re-enter with
`self._run_clustering("kmeans", X, k_max, min_cluster_size, n_dims)`, which
leaves `adaptive` at its default `True` and therefore resolves to the
adaptive branch with actual method "kmeans"; that single unfolding is
inlined here. -/
def run_clustering (O : Oracles) (method : String) (X : List NVec)
    (kMax minClusterSize : ℤ) (nDims : ℕ) (adaptive : Bool) :
    Option RunResult :=
  if method = "adaptive"
      ∨ (adaptive ∧ method ∈ (["kmeans", "hierarchical", "auto"] : List String)) then
    some (adaptivePath O (if method = "adaptive" then "kmeans" else method) X kMax)
  else if "kmeans".data.isPrefixOf method.data then
    kmeansPath O X kMax nDims
  else if method = "hierarchical" then
    hierPath O X kMax
  else if method = "hdbscan" then
    if O.hdbscanAvailable then
      match O.hdbscanFit (max minClusterSize 3) X with
      | none => none
      | some labels =>
        some ⟨labels,
          (distinctCount labels : ℤ) - (if labels.contains (-1) then 1 else 0),
          "hdbscan", [], none⟩
    else
      addWarning hdbscanMissingWarning (some (adaptivePath O "kmeans" X kMax))
  else
    addWarning unknownMethodWarning (some (adaptivePath O "kmeans" X kMax))

/-- `PublicationClustering._auto_method_choice`. -/
def auto_method_choice (O : Oracles) (n : ℕ) : String :=
  if n < 15 then "hierarchical"
  else if n < 150 then (if O.hdbscanAvailable then "hdbscan" else "kmeans")
  else "kmeans"

/-- Round half to even (the rounding of `np.round`) of a rational. -/
def rne (q : ℚ) : ℤ :=
  let f := ⌊q⌋
  let frac := q - (f : ℚ)
  if frac < 1 / 2 then f
  else if 1 / 2 < frac then f + 1
  else if Even f then f else f + 1

/-- `np.round(x, 3)`. -/
def round3 (q : ℚ) : ℚ := ((rne (q * 1000) : ℤ) : ℚ) / 1000

/-- `PublicationClustering._quality_stats`: with fewer than 3 non-noise
points or fewer than 2 distinct non-noise labels, silhouette is NaN and the
noise share is exactly `1 - mask.mean()`; otherwise the silhouette is
computed over the non-noise rows only (NaN when the library call raises) and
both numbers are reported rounded to 3 decimals. -/
def quality_stats (O : Oracles) (X : List NVec) (labels : List ℤ) :
    Option ℚ × ℚ :=
  let masked := labels.filter (fun l => 0 ≤ l)
  let noise : ℚ := 1 - (masked.length : ℚ) / (labels.length : ℚ)
  if masked.length < 3 ∨ masked.dedup.length < 2 then
    (none, noise)
  else
    let pairs := (X.zip labels).filter (fun p => 0 ≤ p.2)
    match O.silhouette (pairs.map Prod.fst) (pairs.map Prod.snd) with
    | none => (none, round3 noise)
    | some s => (some (round3 s), round3 noise)

/-- One entry of the `clusters` defaultdict: label, member ids and the
paired 2-D points, in insertion order. -/
abbrev Group := ℤ × List String × List (List ℚ)

/-- Append a member to a label's group, creating the group at the end on the
first occurrence of the label (Python dict insertion order). -/
def addToGroup : List Group → ℤ → String → List ℚ → List Group
  | [], lab, pid, pt => [(lab, [pid], [pt])]
  | (l, pids, pts) :: rest, lab, pid, pt =>
    if l = lab then (l, pids ++ [pid], pts ++ [pt]) :: rest
    else (l, pids, pts) :: addToGroup rest lab pid pt

/-- `for i, lab in enumerate(labels)`: group the non-noise documents by
label in first-appearance order. -/
def buildGroups (ids : List String) (labels : List ℤ)
    (X2 : List (List ℚ)) : List Group :=
  (List.range labels.length).foldl
    (fun groups i =>
      let lab := labels.getD i 0
      if lab < 0 then groups
      else addToGroup groups lab (ids.getD i "") (X2.getD i []))
    []

/-- Increment a keyword's count (`Counter.update`), first occurrence at the
end. -/
def bumpKey : List (String × ℕ) → String → List (String × ℕ)
  | [], kw => [(kw, 1)]
  | (k, c) :: rest, kw =>
    if k = kw then (k, c + 1) :: rest else (k, c) :: bumpKey rest kw

/-- Keyword counts over the cluster members' keyword lists. -/
def countKeywords (pubs : List Publication) : List (String × ℕ) :=
  pubs.foldl (fun acc p => (p.keywords.getD []).foldl bumpKey acc) []

/-- Stable insertion: place `x` before the first element whose key is not
larger (so equal keys keep input order). -/
def insertByKey {α : Type} (key : α → ℕ) (x : α) : List α → List α
  | [] => [x]
  | y :: ys => if key y ≤ key x then x :: y :: ys else y :: insertByKey key x ys

/-- Python `sorted(..., key=key, reverse=True)`: stable descending sort. -/
def sortByKeyDesc {α : Type} (key : α → ℕ) : List α → List α
  | [] => []
  | x :: xs => insertByKey key x (sortByKeyDesc key xs)

/-- One record of the final `clusters` list. -/
structure ClusterRecord where
  id : ℤ
  publications : List String
  points : List (List ℚ)
  keywords : List (String × ℕ)
  size : ℕ
  yearMin : Option ℤ
  yearMax : Option ℤ
  sample_titles : List String

/-- The per-cluster metadata pass (lines 99-110): member documents are the
publications whose id is in the member list (an absent id is never in a list
of strings), keyword counts with `most_common(10)`, min/max of the truthy
publication years, first 5 titles in input order. -/
def buildRecord (publications : List Publication) (g : Group) : ClusterRecord :=
  let pids := g.2.1
  let pubs := publications.filter (fun p =>
    match p.id with
    | some s => pids.contains s
    | none => false)
  let years := (pubs.filterMap (fun p => p.publication_year)).filter
    (fun y => y ≠ 0)
  { id := g.1
    publications := pids
    points := g.2.2
    keywords := (sortByKeyDesc Prod.snd (countKeywords pubs)).take 10
    size := pids.length
    yearMin := years.min?
    yearMax := years.max?
    sample_titles := (pubs.map (fun p => p.title.getD "")).take 5 }

/-- The `quality` dict of the response. -/
structure Quality where
  silhouette : Option ℚ
  share_noise : ℚ
  parameter_metrics : Option ScoresHistory
  visualization_method : String

/-- The successful response dict of `cluster_publications`. -/
structure ClusterOutput where
  clusters : List ClusterRecord
  n_clusters : ℤ
  method : String
  num_publications : ℕ
  quality : Quality
  publication_to_cluster : List (String × ℤ)

/-- A structured result: the insufficient-input error dict or the full
response. -/
inductive ClusterOutcome where
  | error (msg : String)
  | ok (out : ClusterOutput)

/-- The engine instance state: embedding dimension, vector cache and the
`metrics_history` attribute set by the adaptive path. -/
structure Engine where
  dim : ℕ
  cache : VCache
  metricsHistory : Option ScoresHistory

/-- The insufficient-input message. -/
def tooFewMsg : String := "Too few publications with valid combined_embedding"

/-- Python dict assignment `d[k] = v`: update in place, or append the new
key. -/
def updAssoc : List (String × NVec) → String → NVec → List (String × NVec)
  | [], k, v => [(k, v)]
  | (k0, v0) :: rest, k, v =>
    if k0 = k then (k0, v) :: rest else (k0, v0) :: updAssoc rest k v

/-- The vector-collection loop of `cluster_publications` (lines 60-67):
documents with a falsy id are skipped before any vector work; a document
whose resolved vector is elementwise nonzero is entered into the insertion
ordered `pub_vectors` dict. -/
def collectVectorsAux (dim : ℕ) :
    List Publication → VCache → List (String × NVec) →
      VCache × List (String × NVec)
  | [], cache, acc => (cache, acc)
  | p :: ps, cache, acc =>
    match p.id with
    | none => collectVectorsAux dim ps cache acc
    | some pid =>
      if pid = "" then collectVectorsAux dim ps cache acc
      else
        let r := get_publication_vector dim cache p
        collectVectorsAux dim ps r.2
          (if r.1.anyNonzero then updAssoc acc pid r.1 else acc)

/-- The loop entry point: empty `pub_vectors`, the instance cache. -/
def collectVectors (dim : ℕ) (pubs : List Publication) (cache : VCache) :
    VCache × List (String × NVec) :=
  collectVectorsAux dim pubs cache []

/-- The member-assembly loop indexes `ids[i]` and `X2[i]` for every non-noise
label position; Python raises IndexError when such a position falls outside
either list (possible only for a labelling of the wrong length), aborting the
call.  This guard models that exception. -/
def indexErrorGuard (ids : List String) (X2 : List (List ℚ))
    (labels : List ℤ) : Bool :=
  (List.range labels.length).any
    (fun i => decide (0 ≤ labels.getD i 0)
      && (decide (ids.length ≤ i) || decide (X2.length ≤ i)))

/-- `PublicationClustering.cluster_publications`: collect valid vectors,
return the structured error below 3 of them, otherwise run the display
projection, resolve "auto", dispatch the clustering (`none` models an
uncaught library exception), compute quality, group and sort the cluster
records, and assemble the response; the cache and `metrics_history` instance
state are threaded explicitly. -/
def cluster_publications (O : Oracles) (eng : Engine)
    (publications : List Publication) (method : String) (kMax : ℤ)
    (minClusterSize : ℤ) (adaptive : Bool) (dimReductionMethod : String) :
    Engine × Option ClusterOutcome :=
  let c := collectVectors eng.dim publications eng.cache
  let pubVectors := c.2
  if pubVectors.length < 3 then
    ({ eng with cache := c.1 }, some (.error tooFewMsg))
  else
    let ids := pubVectors.map Prod.fst
    let X := pubVectors.map Prod.snd
    let X2 := O.viz X
    let method2 := if method = "auto" then auto_method_choice O X.length else method
    match run_clustering O method2 X kMax minClusterSize 50 adaptive with
    | none => ({ eng with cache := c.1 }, none)
    | some r =>
      let newHistory := match r.history with
        | some h => some h
        | none => eng.metricsHistory
      if indexErrorGuard ids X2 r.labels then
        ({ eng with cache := c.1, metricsHistory := newHistory }, none)
      else
      let q := quality_stats O X r.labels
      let sortedRecs := sortByKeyDesc ClusterRecord.size
        ((buildGroups ids r.labels X2).map (buildRecord publications))
      ({ eng with cache := c.1, metricsHistory := newHistory },
       some (.ok
        { clusters := sortedRecs
          n_clusters := r.nClusters
          method := r.methodName
          num_publications := X.length
          quality :=
            { silhouette := q.1
              share_noise := q.2
              parameter_metrics := newHistory
              visualization_method := dimReductionMethod }
          publication_to_cluster := ids.zip r.labels }))

/-- C8: `_quality_stats` returns silhouette NaN together with the exact noise
share `1 - (non-noise count) / (total count)` whenever fewer than 3 points
carry a non-negative label or fewer than 2 distinct non-negative labels
occur; otherwise the silhouette is the library score of exactly the
non-noise rows and labels (NaN when that call raises) and the noise share is
reported as well (both rounded to 3 decimals). -/
theorem C8_quality_stats (O : Oracles) (X : List NVec) (labels : List ℤ)
    (_hne : labels ≠ []) :
    (((labels.filter (fun l => 0 ≤ l)).length < 3
        ∨ (labels.filter (fun l => 0 ≤ l)).dedup.length < 2) →
      quality_stats O X labels
        = (none, 1 - ((labels.filter (fun l => 0 ≤ l)).length : ℚ)
            / (labels.length : ℚ)))
    ∧ (¬((labels.filter (fun l => 0 ≤ l)).length < 3
        ∨ (labels.filter (fun l => 0 ≤ l)).dedup.length < 2) →
      (quality_stats O X labels).1
        = (O.silhouette
            (((X.zip labels).filter (fun p => 0 ≤ p.2)).map Prod.fst)
            (((X.zip labels).filter (fun p => 0 ≤ p.2)).map Prod.snd)).map round3
      ∧ (quality_stats O X labels).2
        = round3 (1 - ((labels.filter (fun l => 0 ≤ l)).length : ℚ)
            / (labels.length : ℚ))) := by
  constructor
  · intro hcond
    unfold quality_stats
    rw [if_pos hcond]
  · intro hcond
    unfold quality_stats
    rw [if_neg hcond]
    constructor
    · cases hsil : O.silhouette
          (((X.zip labels).filter (fun p => 0 ≤ p.2)).map Prod.fst)
          (((X.zip labels).filter (fun p => 0 ≤ p.2)).map Prod.snd) with
      | none => simp [hsil]
      | some s => simp [hsil]
    · cases hsil : O.silhouette
          (((X.zip labels).filter (fun p => 0 ≤ p.2)).map Prod.fst)
          (((X.zip labels).filter (fun p => 0 ≤ p.2)).map Prod.snd) with
      | none => simp [hsil]
      | some s => simp [hsil]

/-- Concrete instantiation of the C8 theorem: three points, labels [0, 0, 1]
(3 non-noise points, 2 distinct labels), the trivial oracle. -/
theorem C8_quality_stats_witness :
    (quality_stats oracleZ (List.replicate 3 (NVec.mk [1] false)) [0, 0, 1]).1
      = (oracleZ.silhouette
          ((((List.replicate 3 (NVec.mk [1] false)).zip
              ([0, 0, 1] : List ℤ)).filter (fun p => 0 ≤ p.2)).map Prod.fst)
          ((((List.replicate 3 (NVec.mk [1] false)).zip
              ([0, 0, 1] : List ℤ)).filter (fun p => 0 ≤ p.2)).map Prod.snd)).map
          round3
    ∧ (quality_stats oracleZ (List.replicate 3 (NVec.mk [1] false)) [0, 0, 1]).2
      = round3 (1 - ((([0, 0, 1] : List ℤ).filter (fun l => 0 ≤ l)).length : ℚ)
          / ((([0, 0, 1] : List ℤ).length : ℕ) : ℚ)) :=
  (C8_quality_stats oracleZ (List.replicate 3 (NVec.mk [1] false)) [0, 0, 1]
    (by decide)).2 (by decide)

/-- The truthy id of a document, when it has one. -/
def truthyId (p : Publication) : Option String :=
  match p.id with
  | some pid => if pid = "" then none else some pid
  | none => none

lemma collectVectorsAux_cons_none {dim : ℕ} {p : Publication}
    {ps : List Publication} {cache : VCache} {acc : List (String × NVec)}
    (hid : p.id = none) :
    collectVectorsAux dim (p :: ps) cache acc
      = collectVectorsAux dim ps cache acc := by
  rw [collectVectorsAux, hid]

lemma collectVectorsAux_cons_empty {dim : ℕ} {p : Publication}
    {ps : List Publication} {cache : VCache} {acc : List (String × NVec)}
    {pid : String} (hid : p.id = some pid) (hpid : pid = "") :
    collectVectorsAux dim (p :: ps) cache acc
      = collectVectorsAux dim ps cache acc := by
  rw [collectVectorsAux, hid]
  simp [hpid]

lemma collectVectorsAux_cons_id {dim : ℕ} {p : Publication}
    {ps : List Publication} {cache : VCache} {acc : List (String × NVec)}
    {pid : String} (hid : p.id = some pid) (hpid : pid ≠ "") :
    collectVectorsAux dim (p :: ps) cache acc
      = collectVectorsAux dim ps (get_publication_vector dim cache p).2
          (if (get_publication_vector dim cache p).1.anyNonzero
            then updAssoc acc pid (get_publication_vector dim cache p).1
            else acc) := by
  rw [collectVectorsAux, hid]
  simp [hpid]

lemma collectVectorsAux_filter (dim : ℕ) :
    ∀ (pubs : List Publication) (cache : VCache) (acc : List (String × NVec)),
    collectVectorsAux dim (pubs.filter (fun p => truthy p.id)) cache acc
      = collectVectorsAux dim pubs cache acc := by
  intro pubs
  induction pubs with
  | nil => intro cache acc; rfl
  | cons p ps ih =>
    intro cache acc
    cases hid : p.id with
    | none =>
      have hf : truthy p.id = false := by rw [hid]; rfl
      rw [List.filter_cons, hf]
      simp only [Bool.false_eq_true, if_false]
      rw [ih, collectVectorsAux_cons_none hid]
    | some pid =>
      by_cases hpid : pid = ""
      · have hf : truthy p.id = false := by rw [hid, hpid]; rfl
        rw [List.filter_cons, hf]
        simp only [Bool.false_eq_true, if_false]
        rw [ih, collectVectorsAux_cons_empty hid hpid]
      · have hf : truthy p.id = true := by rw [hid]; simp [truthy, hpid]
        rw [List.filter_cons, hf]
        simp only [if_true]
        rw [collectVectorsAux_cons_id hid hpid, collectVectorsAux_cons_id hid hpid,
          ih]

lemma updAssoc_mem :
    ∀ {l : List (String × NVec)} {k : String} {v : NVec} {k0 : String}
      {v0 : NVec}, (k, v) ∈ updAssoc l k0 v0 → (k, v) ∈ l ∨ (k = k0 ∧ v = v0) := by
  intro l
  induction l with
  | nil =>
    intro k v k0 v0 h
    simp [updAssoc] at h
    exact Or.inr h
  | cons hd tl ih =>
    intro k v k0 v0 h
    rcases hd with ⟨k1, v1⟩
    rw [updAssoc] at h
    by_cases hk : k1 = k0
    · rw [if_pos hk] at h
      rcases List.mem_cons.mp h with heq | hmem
      · injection heq with h1 h2
        exact Or.inr ⟨h1.symm ▸ hk ▸ rfl, h2 ▸ rfl⟩
      · exact Or.inl (List.mem_cons_of_mem _ hmem)
    · rw [if_neg hk] at h
      rcases List.mem_cons.mp h with heq | hmem
      · exact Or.inl (heq ▸ List.mem_cons_self _ _)
      · rcases ih hmem with h1 | h2
        · exact Or.inl (List.mem_cons_of_mem _ h1)
        · exact Or.inr h2

lemma collectVectorsAux_entries (dim : ℕ) :
    ∀ (pubs : List Publication) (cache : VCache) (acc : List (String × NVec)),
    (∀ k v, (k, v) ∈ acc → k ≠ "" ∧ v.anyNonzero = true) →
    ∀ k v, (k, v) ∈ (collectVectorsAux dim pubs cache acc).2 →
      k ≠ "" ∧ v.anyNonzero = true := by
  intro pubs
  induction pubs with
  | nil => intro cache acc hacc k v h; exact hacc k v h
  | cons p ps ih =>
    intro cache acc hacc k v h
    cases hid : p.id with
    | none =>
      rw [collectVectorsAux_cons_none hid] at h
      exact ih _ _ hacc k v h
    | some pid =>
      by_cases hpid : pid = ""
      · rw [collectVectorsAux_cons_empty hid hpid] at h
        exact ih _ _ hacc k v h
      · rw [collectVectorsAux_cons_id hid hpid] at h
        refine ih _ _ ?_ k v h
        intro k2 v2 h2
        by_cases hnz : (get_publication_vector dim cache p).1.anyNonzero = true
        · rw [if_pos hnz] at h2
          rcases updAssoc_mem h2 with hold | ⟨rfl, rfl⟩
          · exact hacc k2 v2 hold
          · exact ⟨hpid, hnz⟩
        · rw [if_neg hnz] at h2
          exact hacc k2 v2 h2

lemma foldl_inv {α β : Type} (f : β → α → β) (P : β → Prop) :
    ∀ (l : List α) (init : β), P init →
      (∀ b a, a ∈ l → P b → P (f b a)) → P (l.foldl f init) := by
  intro l
  induction l with
  | nil => intro init h0 _; exact h0
  | cons x xs ih =>
    intro init h0 hstep
    exact ih (f init x) (hstep init x (List.mem_cons_self x xs) h0)
      (fun b a ha hb => hstep b a (List.mem_cons_of_mem _ ha) hb)

lemma addToGroup_members :
    ∀ {groups : List Group} {lab : ℤ} {pid : String} {pt : List ℚ}
      {g : Group} {p : String}, g ∈ addToGroup groups lab pid pt → p ∈ g.2.1 →
      (∃ g0 ∈ groups, p ∈ g0.2.1) ∨ p = pid := by
  intro groups
  induction groups with
  | nil =>
    intro lab pid pt g p hg hp
    simp [addToGroup] at hg
    rw [hg] at hp
    simp at hp
    exact Or.inr hp
  | cons hd tl ih =>
    intro lab pid pt g p hg hp
    rcases hd with ⟨l0, pids0, pts0⟩
    rw [addToGroup] at hg
    by_cases hl : l0 = lab
    · rw [if_pos hl] at hg
      rcases List.mem_cons.mp hg with rfl | hmem
      · simp only at hp
        rcases List.mem_append.mp hp with hold | hnew
        · exact Or.inl ⟨(l0, pids0, pts0), List.mem_cons_self _ _, hold⟩
        · exact Or.inr (List.mem_singleton.mp hnew)
      · exact Or.inl ⟨g, List.mem_cons_of_mem _ hmem, hp⟩
    · rw [if_neg hl] at hg
      rcases List.mem_cons.mp hg with heq | hmem
      · subst heq
        exact Or.inl ⟨(l0, pids0, pts0), List.mem_cons_self _ _, hp⟩
      · rcases ih hmem hp with ⟨g0, hg0, hp0⟩ | heq
        · exact Or.inl ⟨g0, List.mem_cons_of_mem _ hg0, hp0⟩
        · exact Or.inr heq

lemma buildGroups_members (ids : List String) (labels : List ℤ)
    (X2 : List (List ℚ))
    (hg : ∀ i, i < labels.length → 0 ≤ labels.getD i 0 → i < ids.length) :
    ∀ g ∈ buildGroups ids labels X2, ∀ pid ∈ g.2.1, pid ∈ ids := by
  unfold buildGroups
  refine foldl_inv _
    (fun groups : List Group => ∀ g ∈ groups, ∀ pid ∈ g.2.1, pid ∈ ids)
    (List.range labels.length) [] ?_ ?_
  · intro g hg2
    cases hg2
  · intro groups i hi hinv g hgmem pid hpid
    simp only at hgmem
    by_cases hlab : labels.getD i 0 < 0
    · rw [if_pos hlab] at hgmem
      exact hinv g hgmem pid hpid
    · rw [if_neg hlab] at hgmem
      rcases addToGroup_members hgmem hpid with ⟨g0, hg0, hp0⟩ | rfl
      · exact hinv g0 hg0 pid hp0
      · have hi2 : i < labels.length := List.mem_range.mp hi
        have : i < ids.length := hg i hi2 (not_lt.mp hlab)
        exact getD_mem ids this ""

lemma indexErrorGuard_false {ids : List String} {X2 : List (List ℚ)}
    {labels : List ℤ} (h : indexErrorGuard ids X2 labels = false) :
    ∀ i, i < labels.length → 0 ≤ labels.getD i 0 →
      i < ids.length ∧ i < X2.length := by
  intro i hi hlab
  unfold indexErrorGuard at h
  rw [List.any_eq_false] at h
  have := h i (List.mem_range.mpr hi)
  simp only [Bool.and_eq_true, Bool.or_eq_true, decide_eq_true_eq] at this
  push_neg at this
  constructor
  · by_contra hc
    exact absurd (this (by simpa using hlab)).1 (by omega)
  · by_contra hc
    exact absurd (this (by simpa using hlab)).2 (by omega)

lemma contains_eq_false_of_not_mem {l : List String} {s : String}
    (h : s ∉ l) : l.contains s = false := by
  induction l with
  | nil => rfl
  | cons x xs ih =>
    rw [List.contains_cons]
    have hx : (s == x) = false :=
      beq_eq_false_iff_ne.mpr (fun hc => h (hc ▸ List.mem_cons_self _ _))
    rw [hx]
    simp only [Bool.false_or]
    exact ih (fun hm => h (List.mem_cons_of_mem _ hm))

lemma buildRecord_filter_truthy (pubs : List Publication) (g : Group)
    (hmem : ∀ pid ∈ g.2.1, pid ≠ "") :
    buildRecord pubs g = buildRecord (pubs.filter (fun p => truthy p.id)) g := by
  have hfil : pubs.filter (fun p =>
      match p.id with
      | some s => g.2.1.contains s
      | none => false)
      = (pubs.filter (fun p => truthy p.id)).filter (fun p =>
          match p.id with
          | some s => g.2.1.contains s
          | none => false) := by
    rw [List.filter_filter]
    apply List.filter_congr
    intro p _
    cases hid : p.id with
    | none => simp [truthy, hid]
    | some pid =>
      by_cases hpid : pid = ""
      · subst hpid
        have hnot : "" ∉ g.2.1 := fun hin => hmem "" hin rfl
        simp [truthy, hid, hnot]
      · simp [truthy, hid, hpid]
  simp only [buildRecord]
  rw [hfil]

/-- C9: documents with an absent or empty id are skipped silently: the whole
call behaves exactly as if they were not in the batch (they contribute no
vector, are not counted toward the minimum of 3 valid documents, and appear
in no ClusterRecord and under no key of the assignment map), and every key of
the returned assignment map is a non-empty id. -/
theorem C9_falsy_ids_skipped (O : Oracles) (eng : Engine)
    (pubs : List Publication) (method : String) (kMax minClusterSize : ℤ)
    (adaptive : Bool) (dimReductionMethod : String) :
    cluster_publications O eng pubs method kMax minClusterSize adaptive
        dimReductionMethod
      = cluster_publications O eng (pubs.filter (fun p => truthy p.id)) method
          kMax minClusterSize adaptive dimReductionMethod
    ∧ (∀ out, (cluster_publications O eng pubs method kMax minClusterSize
          adaptive dimReductionMethod).2 = some (.ok out) →
        ∀ pr ∈ out.publication_to_cluster, pr.1 ≠ "") := by
  have hcoll : collectVectors eng.dim (pubs.filter (fun p => truthy p.id))
      eng.cache = collectVectors eng.dim pubs eng.cache :=
    collectVectorsAux_filter eng.dim pubs eng.cache []
  have hkeys : ∀ k v, (k, v) ∈ (collectVectors eng.dim pubs eng.cache).2 →
      k ≠ "" ∧ v.anyNonzero = true :=
    collectVectorsAux_entries eng.dim pubs eng.cache []
      (by intro k v h; cases h)
  constructor
  · simp only [cluster_publications, hcoll]
    by_cases hlen : (collectVectors eng.dim pubs eng.cache).2.length < 3
    · rw [if_pos hlen, if_pos hlen]
    · rw [if_neg hlen, if_neg hlen]
      cases hrun : run_clustering O
          (if method = "auto" then
            auto_method_choice O
              ((collectVectors eng.dim pubs eng.cache).2.map Prod.snd).length
          else method)
          ((collectVectors eng.dim pubs eng.cache).2.map Prod.snd) kMax
          minClusterSize 50 adaptive with
      | none => rfl
      | some r =>
        dsimp only
        by_cases hguard : indexErrorGuard
            ((collectVectors eng.dim pubs eng.cache).2.map Prod.fst)
            (O.viz ((collectVectors eng.dim pubs eng.cache).2.map Prod.snd))
            r.labels = true
        · rw [if_pos hguard, if_pos hguard]
        · rw [if_neg hguard, if_neg hguard]
          have hmems : ∀ g ∈ buildGroups
              ((collectVectors eng.dim pubs eng.cache).2.map Prod.fst) r.labels
              (O.viz ((collectVectors eng.dim pubs eng.cache).2.map Prod.snd)),
              ∀ pid ∈ g.2.1, pid ≠ "" := by
            intro g hgm pid hpid
            have hin : pid ∈ (collectVectors eng.dim pubs eng.cache).2.map
                Prod.fst :=
              buildGroups_members _ _ _
                (fun i hi hl =>
                  (indexErrorGuard_false (Bool.not_eq_true _ ▸ hguard) i hi
                    hl).1)
                g hgm pid hpid
            rcases List.mem_map.mp hin with ⟨⟨k, v⟩, hkv, rfl⟩
            exact (hkeys k v hkv).1
          have hrecs : (buildGroups
              ((collectVectors eng.dim pubs eng.cache).2.map Prod.fst) r.labels
              (O.viz ((collectVectors eng.dim pubs eng.cache).2.map
                Prod.snd))).map (buildRecord pubs)
              = (buildGroups
                ((collectVectors eng.dim pubs eng.cache).2.map Prod.fst)
                r.labels
                (O.viz ((collectVectors eng.dim pubs eng.cache).2.map
                  Prod.snd))).map
                (buildRecord (pubs.filter (fun p => truthy p.id))) := by
            apply List.map_congr_left
            intro g hgm
            exact buildRecord_filter_truthy pubs g (hmems g hgm)
          rw [hrecs]
  · intro out hout
    simp only [cluster_publications] at hout
    by_cases hlen : (collectVectors eng.dim pubs eng.cache).2.length < 3
    · rw [if_pos hlen] at hout
      simp at hout
    · rw [if_neg hlen] at hout
      cases hrun : run_clustering O
          (if method = "auto" then
            auto_method_choice O
              ((collectVectors eng.dim pubs eng.cache).2.map Prod.snd).length
          else method)
          ((collectVectors eng.dim pubs eng.cache).2.map Prod.snd) kMax
          minClusterSize 50 adaptive with
      | none =>
        rw [hrun] at hout
        simp at hout
      | some r =>
        rw [hrun] at hout
        dsimp only at hout
        by_cases hguard : indexErrorGuard
            ((collectVectors eng.dim pubs eng.cache).2.map Prod.fst)
            (O.viz ((collectVectors eng.dim pubs eng.cache).2.map Prod.snd))
            r.labels = true
        · rw [if_pos hguard] at hout
          simp at hout
        · rw [if_neg hguard] at hout
          simp only at hout
          injection hout with h1
          injection h1 with h2
          intro pr hpr
          have hzip : pr ∈ ((collectVectors eng.dim pubs eng.cache).2.map
              Prod.fst).zip r.labels := by
            rw [← congrArg ClusterOutput.publication_to_cluster h2] at hpr
            exact hpr
          rcases pr with ⟨k, lab⟩
          have hk : k ∈ (collectVectors eng.dim pubs eng.cache).2.map
              Prod.fst := (List.of_mem_zip hzip).1
          rcases List.mem_map.mp hk with ⟨⟨k2, v⟩, hkv, rfl⟩
          exact (hkeys k2 v hkv).1

lemma natSqrt_eq {n m : ℕ} (h1 : m * m ≤ n) (h2 : n < (m + 1) * (m + 1)) :
    Nat.sqrt n = m :=
  le_antisymm (Nat.lt_succ_iff.mp (Nat.sqrt_lt.mpr h2)) (Nat.le_sqrt.mpr h1)

lemma lookup_append (l1 l2 : VCache) (p : String) :
    (l1 ++ l2).lookup p =
      (match l1.lookup p with
       | some v => some v
       | none => l2.lookup p) := by
  induction l1 with
  | nil => simp [List.lookup]
  | cons hd tl ih =>
    rcases hd with ⟨k, v⟩
    by_cases hk : p = k
    · subst hk
      simp [List.lookup]
    · have hbeq : (p == k) = false := beq_eq_false_iff_ne.mpr hk
      simp [List.lookup, hbeq, ih]

lemma gpv_fresh {dim : ℕ} {cache : VCache} {p : Publication} {pid : String}
    (hid : p.id = some pid) (hpid : pid ≠ "")
    (hlk : cache.lookup pid = none) :
    get_publication_vector dim cache p
      = (computeVec dim p.combined_embedding,
         cache ++ [(pid, computeVec dim p.combined_embedding)]) := by
  unfold get_publication_vector
  rw [hid]
  simp [hpid, hlk]

lemma gpv_hit {dim : ℕ} {cache : VCache} {p : Publication} {pid : String}
    {v : NVec} (hid : p.id = some pid) (hpid : pid ≠ "")
    (hlk : cache.lookup pid = some v) :
    get_publication_vector dim cache p = (v, cache) := by
  unfold get_publication_vector
  rw [hid]
  simp [hpid, hlk]

lemma updAssoc_append {l : List (String × NVec)} {k : String} (v : NVec)
    (h : k ∉ l.map Prod.fst) : updAssoc l k v = l ++ [(k, v)] := by
  induction l with
  | nil => rfl
  | cons hd tl ih =>
    rcases hd with ⟨k0, v0⟩
    have hk : k0 ≠ k := by
      intro hc
      exact h (by simp [hc])
    rw [updAssoc, if_neg hk, ih (fun hm => h (by simp [hm]))]
    simp

/-- The claim's validity of a raw embedding: present, right dimension, free
of NaN, and elementwise not all zero. -/
def claimValidVec (dim : ℕ) (emb : Option (List RawEntry)) : Bool :=
  match emb with
  | none => false
  | some raw =>
    (raw.length == dim) && !(raw.any (fun e => e.isNone))
      && (raw.filterMap id).any (fun x => x != 0)

lemma zeroVec_anyNonzero (n : ℕ) : (zeroVec n).anyNonzero = false := by
  induction n with
  | zero => rfl
  | succ m ih =>
    simp only [zeroVec, NVec.anyNonzero, List.replicate, List.any_cons] at *
    rw [ih]
    norm_num

lemma computeVec_anyNonzero (dim : ℕ) (emb : Option (List RawEntry)) :
    (computeVec dim emb).anyNonzero = claimValidVec dim emb := by
  cases emb with
  | none => exact zeroVec_anyNonzero dim
  | some raw =>
    unfold computeVec claimValidVec
    dsimp only
    by_cases hval : raw.length ≠ dim ∨ raw.any (fun e => e.isNone)
    · rw [if_pos hval, zeroVec_anyNonzero]
      rcases hval with h1 | h2
      · have : (raw.length == dim) = false := by
          simpa using h1
        rw [this]
        simp
      · rw [h2]
        simp
    · rw [if_neg hval]
      push_neg at hval
      have h1 : (raw.length == dim) = true := by simpa using hval.1
      have h2 : raw.any (fun e => e.isNone) = false :=
        Bool.not_eq_true _ ▸ hval.2
      rw [h1, h2]
      by_cases hpos : 0 < sumSq (raw.filterMap id)
      · rw [if_pos hpos]
        simp [NVec.anyNonzero]
      · rw [if_neg hpos]
        simp [NVec.anyNonzero]

/-- The dict entry a document contributes to `pub_vectors` on a fresh cache:
its truthy id paired with its computed vector, when that vector is nonzero. -/
def validEntry (dim : ℕ) (p : Publication) : Option (String × NVec) :=
  match p.id with
  | some pid =>
    if pid = "" then none
    else if (computeVec dim p.combined_embedding).anyNonzero
      then some (pid, computeVec dim p.combined_embedding) else none
  | none => none

lemma collectVectorsAux_chars (dim : ℕ) :
    ∀ (pubs : List Publication) (cache : VCache) (acc : List (String × NVec)),
    (∀ p ∈ pubs, ∀ pid, p.id = some pid → pid ≠ "" →
      cache.lookup pid = none) →
    (pubs.filterMap truthyId).Nodup →
    (∀ k, k ∈ acc.map Prod.fst → k ∉ pubs.filterMap truthyId) →
    (collectVectorsAux dim pubs cache acc).2
      = acc ++ pubs.filterMap (validEntry dim) := by
  intro pubs
  induction pubs with
  | nil =>
    intro cache acc _ _ _
    simp [collectVectorsAux]
  | cons p ps ih =>
    intro cache acc hfresh hnodup hacc
    cases hid : p.id with
    | none =>
      rw [collectVectorsAux_cons_none hid]
      have htid : truthyId p = none := by simp [truthyId, hid]
      simp only [List.filterMap_cons, htid] at hnodup ⊢
      have hve : validEntry dim p = none := by simp [validEntry, hid]
      simp only [hve]
      exact ih cache acc (fun q hq => hfresh q (List.mem_cons_of_mem _ hq))
        hnodup (by
          intro k hk
          have := hacc k hk
          simp only [List.filterMap_cons, htid] at this
          exact this)
    | some pid =>
      by_cases hpid : pid = ""
      · rw [collectVectorsAux_cons_empty hid hpid]
        have htid : truthyId p = none := by simp [truthyId, hid, hpid]
        simp only [List.filterMap_cons, htid] at hnodup ⊢
        have hve : validEntry dim p = none := by simp [validEntry, hid, hpid]
        simp only [hve]
        exact ih cache acc (fun q hq => hfresh q (List.mem_cons_of_mem _ hq))
          hnodup (by
            intro k hk
            have := hacc k hk
            simp only [List.filterMap_cons, htid] at this
            exact this)
      · have htid : truthyId p = some pid := by simp [truthyId, hid, hpid]
        have hlk : cache.lookup pid = none :=
          hfresh p (List.mem_cons_self _ _) pid hid hpid
        rw [collectVectorsAux_cons_id hid hpid, gpv_fresh hid hpid hlk]
        simp only [List.filterMap_cons, htid] at hnodup
        have hpid_not : pid ∉ ps.filterMap truthyId :=
          (List.nodup_cons.mp hnodup).1
        have hnodup2 : (ps.filterMap truthyId).Nodup :=
          (List.nodup_cons.mp hnodup).2
        have hfresh2 : ∀ q ∈ ps, ∀ pid2, q.id = some pid2 → pid2 ≠ "" →
            (cache ++ [(pid, computeVec dim p.combined_embedding)]).lookup pid2
              = none := by
          intro q hq pid2 hq2 hq3
          rw [lookup_append, hfresh q (List.mem_cons_of_mem _ hq) pid2 hq2 hq3]
          have hne : pid2 ≠ pid := by
            intro hc
            exact hpid_not (hc ▸ List.mem_filterMap.mpr
              ⟨q, hq, by simp [truthyId, hq2, hq3]⟩)
          simp [List.lookup, beq_eq_false_iff_ne.mpr hne]
        by_cases hnz : (computeVec dim p.combined_embedding).anyNonzero = true
        · rw [if_pos hnz]
          have hknotin : pid ∉ acc.map Prod.fst := by
            intro hin
            exact hacc pid hin (by
              simp only [List.filterMap_cons, htid]
              exact List.mem_cons_self _ _)
          rw [updAssoc_append _ hknotin]
          rw [ih _ _ hfresh2 hnodup2 (by
            intro k hk
            rcases List.mem_map.mp hk with ⟨⟨k0, v0⟩, hkv, rfl⟩
            rcases List.mem_append.mp hkv with hold | hnew
            · intro hmem
              have := hacc k0 (List.mem_map.mpr ⟨(k0, v0), hold, rfl⟩)
              simp only [List.filterMap_cons, htid] at this
              exact this (List.mem_cons_of_mem _ hmem)
            · have : k0 = pid := congrArg Prod.fst (List.mem_singleton.mp hnew)
              exact this ▸ hpid_not)]
          have hve : validEntry dim p
              = some (pid, computeVec dim p.combined_embedding) := by
            simp [validEntry, hid, hpid, hnz]
          simp only [List.filterMap_cons, hve, List.append_assoc]
          rfl
        · rw [if_neg hnz]
          rw [ih _ _ hfresh2 hnodup2 (by
            intro k hk
            have := hacc k hk
            simp only [List.filterMap_cons, htid] at this
            exact fun hmem => this (List.mem_cons_of_mem _ hmem))]
          have hve : validEntry dim p = none := by
            simp only [validEntry, hid]
            rw [if_neg hpid, if_neg hnz]
          simp only [List.filterMap_cons, hve]

lemma length_filterMap_eq_countP {α β : Type} (f : α → Option β)
    (l : List α) :
    (l.filterMap f).length = l.countP (fun a => (f a).isSome) := by
  induction l with
  | nil => rfl
  | cons x xs ih =>
    rw [List.filterMap_cons, List.countP_cons]
    cases hx : f x with
    | none => simp [hx, ih]
    | some b => simp [hx, ih]

lemma validEntry_isSome (dim : ℕ) (p : Publication) :
    (validEntry dim p).isSome
      = (truthy p.id && claimValidVec dim p.combined_embedding) := by
  unfold validEntry
  cases hid : p.id with
  | none => simp [truthy]
  | some pid =>
    dsimp only
    by_cases hpid : pid = ""
    · simp [truthy, hpid]
    · rw [if_neg hpid, ← computeVec_anyNonzero]
      by_cases hnz : (computeVec dim p.combined_embedding).anyNonzero = true
      · rw [if_pos hnz, hnz]
        simp [truthy, hpid]
      · rw [if_neg hnz]
        simp only [Bool.not_eq_true] at hnz
        rw [hnz]
        simp [truthy, hpid]

lemma nodup_filterMap_unique {l : List Publication}
    (h : (l.filterMap truthyId).Nodup) {p q : Publication} {pid : String}
    (hp : p ∈ l) (hq : q ∈ l) (hp2 : truthyId p = some pid)
    (hq2 : truthyId q = some pid) : p = q := by
  induction l with
  | nil => cases hp
  | cons a as ih =>
    cases ha : truthyId a with
    | some pa =>
      rw [List.filterMap_cons, ha] at h
      have hnotin := (List.nodup_cons.mp h).1
      have hnd := (List.nodup_cons.mp h).2
      rcases List.mem_cons.mp hp with rfl | hpin
      · rcases List.mem_cons.mp hq with rfl | hqin
        · rfl
        · exfalso
          rw [hp2] at ha
          injection ha with ha
          exact hnotin (ha ▸ List.mem_filterMap.mpr ⟨q, hqin, hq2⟩)
      · rcases List.mem_cons.mp hq with rfl | hqin
        · exfalso
          rw [hq2] at ha
          injection ha with ha
          exact hnotin (ha ▸ List.mem_filterMap.mpr ⟨p, hpin, hp2⟩)
        · exact ih hnd hpin hqin
    | none =>
      rw [List.filterMap_cons, ha] at h
      rcases List.mem_cons.mp hp with rfl | hpin
      · rw [hp2] at ha
        exact Option.noConfusion ha
      · rcases List.mem_cons.mp hq with rfl | hqin
        · rw [hq2] at ha
          exact Option.noConfusion ha
        · exact ih h hpin hqin

/-- C1 (amended): on a fresh cache and for a batch whose truthy ids are
pairwise distinct, `cluster_publications` returns the structured
insufficient-input error (never an exception) exactly when fewer than 3
documents carry both a truthy id and a valid (present, correct-dimension,
NaN-free, non-zero) embedding; with 3 or more such documents that error is
not returned.  (The original claim counted valid embeddings alone: a
document with a valid embedding but an absent or empty id is skipped and
does not count toward the minimum.) -/
theorem C1_insufficient_input (O : Oracles) (eng : Engine)
    (pubs : List Publication) (method : String) (kMax minClusterSize : ℤ)
    (adaptive : Bool) (dimReductionMethod : String)
    (hfresh : ∀ p ∈ pubs, ∀ pid, p.id = some pid → pid ≠ "" →
      eng.cache.lookup pid = none)
    (hnodup : (pubs.filterMap truthyId).Nodup) :
    ((cluster_publications O eng pubs method kMax minClusterSize adaptive
        dimReductionMethod).2 = some (.error tooFewMsg))
      ↔ pubs.countP (fun p =>
          truthy p.id && claimValidVec eng.dim p.combined_embedding) < 3 := by
  have hchars : (collectVectors eng.dim pubs eng.cache).2
      = pubs.filterMap (validEntry eng.dim) :=
    (collectVectorsAux_chars eng.dim pubs eng.cache [] hfresh hnodup
      (by intro k hk; simp at hk)).trans (List.nil_append _)
  have hlen : (collectVectors eng.dim pubs eng.cache).2.length
      = pubs.countP (fun p =>
          truthy p.id && claimValidVec eng.dim p.combined_embedding) := by
    rw [hchars, length_filterMap_eq_countP]
    have hfun : (fun p : Publication => (validEntry eng.dim p).isSome)
        = (fun p =>
            truthy p.id && claimValidVec eng.dim p.combined_embedding) :=
      funext (validEntry_isSome eng.dim)
    rw [hfun]
  simp only [cluster_publications]
  by_cases hlt : (collectVectors eng.dim pubs eng.cache).2.length < 3
  · rw [if_pos hlt]
    simp only [hlen] at hlt
    simp [hlt]
  · rw [if_neg hlt]
    simp only [hlen] at hlt
    constructor
    · intro hout
      exfalso
      cases hrun : run_clustering O
          (if method = "auto" then
            auto_method_choice O
              ((collectVectors eng.dim pubs eng.cache).2.map Prod.snd).length
          else method)
          ((collectVectors eng.dim pubs eng.cache).2.map Prod.snd) kMax
          minClusterSize 50 adaptive with
      | none =>
        rw [hrun] at hout
        simp at hout
      | some r =>
        rw [hrun] at hout
        dsimp only at hout
        by_cases hguard : indexErrorGuard
            ((collectVectors eng.dim pubs eng.cache).2.map Prod.fst)
            (O.viz ((collectVectors eng.dim pubs eng.cache).2.map Prod.snd))
            r.labels = true
        · rw [if_pos hguard] at hout
          simp at hout
        · rw [if_neg hguard] at hout
          simp only at hout
          injection hout with h1
          exact ClusterOutcome.noConfusion h1
    · intro h
      exact absurd h hlt

theorem C1_insufficient_input_witness :
    (∀ p ∈ ([] : List Publication), ∀ pid, p.id = some pid → pid ≠ "" →
      (Engine.mk 1 [] none).cache.lookup pid = none)
    ∧ (([] : List Publication).filterMap truthyId).Nodup
    ∧ ((cluster_publications oracleZ (Engine.mk 1 [] none) [] "kmeans" 10 5
          true "pca").2 = some (.error tooFewMsg)
        ↔ ([] : List Publication).countP (fun p =>
            truthy p.id && claimValidVec 1 p.combined_embedding) < 3) :=
  ⟨fun p hp => absurd hp (List.not_mem_nil p), List.nodup_nil,
   C1_insufficient_input oracleZ (Engine.mk 1 [] none) [] "kmeans" 10 5 true
     "pca" (fun p hp => absurd hp (List.not_mem_nil p)) List.nodup_nil⟩

/-- A document carrying a perfectly valid one-dimensional embedding but no
id at all. -/
def docNoId : Publication :=
  { id := none, combined_embedding := some [some 1], title := none,
    keywords := none, publication_year := none }

/-- C1 counterexample: a batch of three documents, each with a valid
(present, dimension-1, NaN-free, non-zero) embedding vector, on which
`cluster_publications` nevertheless returns the insufficient-input error,
because their ids are absent and they are skipped before being counted. -/
theorem C1_counterexample :
    ([docNoId, docNoId, docNoId].countP
        (fun p => claimValidVec 1 p.combined_embedding)) = 3
    ∧ (cluster_publications oracleZ (Engine.mk 1 [] none)
        [docNoId, docNoId, docNoId] "kmeans" 10 5 true "pca").2
      = some (.error tooFewMsg) :=
  ⟨by decide, rfl⟩

/-- The cluster-record list of a call outcome: the `clusters` field of a
successful response; the error dict and an uncaught exception carry none. -/
def outcomeClusters : Option ClusterOutcome → List ClusterRecord
  | some (.ok out) => out.clusters
  | _ => []

/-- The label column of the returned id-to-cluster assignment map. -/
def outcomeAssignLabels : Option ClusterOutcome → List ℤ
  | some (.ok out) => out.publication_to_cluster.map Prod.snd
  | _ => []

/-- Index of the first occurrence of a label (list length when absent). -/
def firstPos : List ℤ → ℤ → ℕ
  | [], _ => 0
  | l :: ls, lab => if l = lab then 0 else firstPos ls lab + 1

lemma firstPos_eq : ∀ (labels : List ℤ) (n : ℕ) (lab : ℤ),
    n < labels.length → labels.getD n 0 = lab →
    (∀ j, j < n → labels.getD j 0 ≠ lab) → firstPos labels lab = n := by
  intro labels
  induction labels with
  | nil => intro n lab hn; simp at hn
  | cons l ls ih =>
    intro n lab hn hget hbefore
    cases n with
    | zero =>
      simp only [List.getD_cons_zero] at hget
      rw [firstPos, if_pos hget]
    | succ m =>
      have hl : l ≠ lab := by
        have := hbefore 0 (Nat.succ_pos m)
        simpa using this
      rw [firstPos, if_neg hl]
      have := ih m lab (by simpa using hn) (by simpa using hget)
        (fun j hj => by
          have := hbefore (j + 1) (Nat.succ_lt_succ hj)
          simpa using this)
      omega

lemma firstPos_take : ∀ (labels : List ℤ) (n : ℕ) (lab : ℤ),
    firstPos labels lab < n →
    firstPos (labels.take n) lab = firstPos labels lab := by
  intro labels
  induction labels with
  | nil => intro n lab _; simp
  | cons l ls ih =>
    intro n lab hlt
    cases n with
    | zero => cases hlt
    | succ m =>
      rw [List.take_succ_cons]
      by_cases hl : l = lab
      · rw [firstPos, if_pos hl, firstPos, if_pos hl]
      · rw [firstPos, if_neg hl, firstPos, if_neg hl]
        rw [firstPos, if_neg hl] at hlt
        rw [ih m lab (by omega)]

lemma mem_insertByKey {α : Type} (key : α → ℕ) (y : α) :
    ∀ (l : List α) (x : α), x ∈ insertByKey key y l → x = y ∨ x ∈ l := by
  intro l
  induction l with
  | nil =>
    intro x hx
    rw [insertByKey] at hx
    exact Or.inl (List.mem_singleton.mp hx)
  | cons z zs ih =>
    intro x hx
    rw [insertByKey] at hx
    by_cases hk : key z ≤ key y
    · rw [if_pos hk] at hx
      rcases List.mem_cons.mp hx with rfl | h2
      · exact Or.inl rfl
      · exact Or.inr h2
    · rw [if_neg hk] at hx
      rcases List.mem_cons.mp hx with rfl | h2
      · exact Or.inr (List.mem_cons_self _ _)
      · rcases ih x h2 with h3 | h3
        · exact Or.inl h3
        · exact Or.inr (List.mem_cons_of_mem _ h3)

lemma mem_sortByKeyDesc {α : Type} (key : α → ℕ) :
    ∀ (l : List α) (x : α), x ∈ sortByKeyDesc key l → x ∈ l := by
  intro l
  induction l with
  | nil => intro x hx; exact hx
  | cons z zs ih =>
    intro x hx
    rw [sortByKeyDesc] at hx
    rcases mem_insertByKey key z _ x hx with rfl | h2
    · exact List.mem_cons_self _ _
    · exact List.mem_cons_of_mem _ (ih x h2)

lemma pairwise_insertByKey {α : Type} (key : α → ℕ) (P : α → α → Prop)
    (x : α) :
    ∀ l : List α,
    l.Pairwise (fun a b => key b < key a ∨ (key a = key b ∧ P a b)) →
    (∀ y ∈ l, P x y) →
    (insertByKey key x l).Pairwise
      (fun a b => key b < key a ∨ (key a = key b ∧ P a b)) := by
  intro l
  induction l with
  | nil =>
    intro _ _
    rw [insertByKey]
    exact List.pairwise_singleton _ _
  | cons y ys ih =>
    intro hpw hP
    rw [insertByKey]
    rcases List.pairwise_cons.mp hpw with ⟨hy, hys⟩
    by_cases hk : key y ≤ key x
    · rw [if_pos hk]
      refine List.pairwise_cons.mpr ⟨?_, hpw⟩
      intro z hz
      rcases List.mem_cons.mp hz with rfl | hzys
      · rcases lt_or_eq_of_le hk with h | h
        · exact Or.inl h
        · exact Or.inr ⟨h.symm, hP z (List.mem_cons_self _ _)⟩
      · rcases hy z hzys with h | ⟨heq, _⟩
        · exact Or.inl (lt_of_lt_of_le h hk)
        · rcases lt_or_eq_of_le (heq ▸ hk) with h2 | h2
          · exact Or.inl h2
          · exact Or.inr ⟨h2.symm, hP z (List.mem_cons_of_mem _ hzys)⟩
    · rw [if_neg hk]
      refine List.pairwise_cons.mpr
        ⟨?_, ih hys (fun z hz => hP z (List.mem_cons_of_mem _ hz))⟩
      intro z hz
      rcases mem_insertByKey key x _ z hz with rfl | hzys
      · exact Or.inl (lt_of_not_le hk)
      · exact hy z hzys

lemma pairwise_sortByKeyDesc {α : Type} (key : α → ℕ) (P : α → α → Prop) :
    ∀ l : List α, l.Pairwise P →
    (sortByKeyDesc key l).Pairwise
      (fun a b => key b < key a ∨ (key a = key b ∧ P a b)) := by
  intro l
  induction l with
  | nil => intro _; exact List.Pairwise.nil
  | cons x xs ih =>
    intro hpw
    rcases List.pairwise_cons.mp hpw with ⟨hx, hxs⟩
    rw [sortByKeyDesc]
    exact pairwise_insertByKey key P x _ (ih hxs)
      (fun y hy => hx y (mem_sortByKeyDesc key xs y hy))

lemma addToGroup_fsts :
    ∀ (groups : List Group) (lab : ℤ) (pid : String) (pt : List ℚ),
    (addToGroup groups lab pid pt).map Prod.fst
      = if lab ∈ groups.map Prod.fst then groups.map Prod.fst
        else groups.map Prod.fst ++ [lab] := by
  intro groups
  induction groups with
  | nil =>
    intro lab pid pt
    simp [addToGroup]
  | cons hd tl ih =>
    intro lab pid pt
    rcases hd with ⟨l, pids, pts⟩
    rw [addToGroup]
    by_cases hl : l = lab
    · rw [if_pos hl]
      have : lab ∈ ((l, pids, pts) :: tl).map Prod.fst := by
        simp [hl]
      rw [if_pos this]
      simp
    · rw [if_neg hl]
      simp only [List.map_cons]
      rw [ih]
      by_cases hmem : lab ∈ tl.map Prod.fst
      · rw [if_pos hmem, if_pos (by simp [hmem])]
      · rw [if_neg hmem, if_neg (by
          simp only [List.map_cons, List.mem_cons]
          push_neg
          exact ⟨fun hc => hl hc.symm, hmem⟩)]
        simp

/-- Invariant of the grouping loop after the first `i` positions: the group
labels are pairwise ordered by first appearance, each appeared (non-noise)
before position `i`, and every non-noise label of the prefix has its group. -/
def GInv (labels : List ℤ) (i : ℕ) (fsts : List ℤ) : Prop :=
  fsts.Pairwise (fun a b => firstPos labels a < firstPos labels b)
  ∧ (∀ l ∈ fsts, firstPos labels l < i
      ∧ labels.getD (firstPos labels l) 0 = l ∧ 0 ≤ l)
  ∧ (∀ j, j < i → 0 ≤ labels.getD j 0 → labels.getD j 0 ∈ fsts)

lemma buildGroups_inv (ids : List String) (labels : List ℤ)
    (X2 : List (List ℚ)) :
    ∀ n, n ≤ labels.length →
    GInv labels n
      (((List.range n).foldl
        (fun groups i =>
          let lab := labels.getD i 0
          if lab < 0 then groups
          else addToGroup groups lab (ids.getD i "") (X2.getD i []))
        []).map Prod.fst) := by
  intro n
  induction n with
  | zero =>
    intro _
    exact ⟨List.Pairwise.nil, fun l hl => absurd hl (List.not_mem_nil l),
      fun j hj => absurd hj (Nat.not_lt_zero j)⟩
  | succ m ih =>
    intro hm
    have hinv := ih (Nat.le_of_succ_le hm)
    rw [List.range_succ, List.foldl_append, List.foldl_cons, List.foldl_nil]
    set prev := (List.range m).foldl
      (fun groups i =>
        let lab := labels.getD i 0
        if lab < 0 then groups
        else addToGroup groups lab (ids.getD i "") (X2.getD i []))
      [] with hprev
    rcases hinv with ⟨hpw, hbound, hcomp⟩
    dsimp only
    by_cases hneg : labels.getD m 0 < 0
    · rw [if_pos hneg]
      refine ⟨hpw, fun l hl => ?_, fun j hj hjn => ?_⟩
      · have := hbound l hl
        exact ⟨Nat.lt_succ_of_lt this.1, this.2⟩
      · rcases Nat.lt_succ_iff_lt_or_eq.mp hj with hj2 | rfl
        · exact hcomp j hj2 hjn
        · exact absurd hjn (not_le.mpr hneg)
    · rw [if_neg hneg]
      rw [addToGroup_fsts]
      by_cases hmem : labels.getD m 0 ∈ prev.map Prod.fst
      · rw [if_pos hmem]
        refine ⟨hpw, fun l hl => ?_, fun j hj hjn => ?_⟩
        · have := hbound l hl
          exact ⟨Nat.lt_succ_of_lt this.1, this.2⟩
        · rcases Nat.lt_succ_iff_lt_or_eq.mp hj with hj2 | rfl
          · exact hcomp j hj2 hjn
          · exact hmem
      · rw [if_neg hmem]
        have hfp : firstPos labels (labels.getD m 0) = m := by
          refine firstPos_eq labels m (labels.getD m 0)
            (Nat.lt_of_succ_le hm) rfl (fun j hj hc => ?_)
          exact hmem (hc ▸ hcomp j hj (hc ▸ not_lt.mp hneg))
        refine ⟨?_, fun l hl => ?_, fun j hj hjn => ?_⟩
        · rw [List.pairwise_append]
          refine ⟨hpw, List.pairwise_singleton _ _, ?_⟩
          intro a ha b hb
          rw [List.mem_singleton.mp hb, hfp]
          exact (hbound a ha).1
        · rcases List.mem_append.mp hl with hold | hnew
          · have := hbound l hold
            exact ⟨Nat.lt_succ_of_lt this.1, this.2⟩
          · rw [List.mem_singleton.mp hnew, hfp]
            exact ⟨Nat.lt_succ_self m, rfl, not_lt.mp hneg⟩
        · rcases Nat.lt_succ_iff_lt_or_eq.mp hj with hj2 | rfl
          · exact List.mem_append.mpr (Or.inl (hcomp j hj2 hjn))
          · exact List.mem_append.mpr (Or.inr (List.mem_singleton.mpr rfl))

lemma pairwise_of_map {α β : Type} (f : α → β) (S : β → β → Prop) :
    ∀ l : List α, (l.map f).Pairwise S →
      l.Pairwise (fun a b => S (f a) (f b)) := by
  intro l
  induction l with
  | nil => intro _; exact List.Pairwise.nil
  | cons x xs ih =>
    intro h
    rw [List.map_cons, List.pairwise_cons] at h
    refine List.pairwise_cons.mpr ⟨?_, ih h.2⟩
    intro y hy
    exact h.1 (f y) (List.mem_map.mpr ⟨y, hy, rfl⟩)

lemma buildGroups_order (ids : List String) (labels : List ℤ)
    (X2 : List (List ℚ)) :
    (buildGroups ids labels X2).Pairwise
      (fun g1 g2 => firstPos labels g1.1 < firstPos labels g2.1)
    ∧ ∀ g ∈ buildGroups ids labels X2,
        firstPos labels g.1 < labels.length
        ∧ labels.getD (firstPos labels g.1) 0 = g.1 ∧ 0 ≤ g.1 := by
  have h := buildGroups_inv ids labels X2 labels.length (le_refl _)
  rcases h with ⟨hpw, hbound, _⟩
  have hpw2 : ((buildGroups ids labels X2).map Prod.fst).Pairwise
      (fun a b => firstPos labels a < firstPos labels b) := hpw
  have hbound2 : ∀ l ∈ (buildGroups ids labels X2).map Prod.fst,
      firstPos labels l < labels.length
      ∧ labels.getD (firstPos labels l) 0 = l ∧ 0 ≤ l := hbound
  constructor
  · exact pairwise_of_map Prod.fst
      (fun a b => firstPos labels a < firstPos labels b) _ hpw2
  · intro g hg
    exact hbound2 g.1 (List.mem_map.mpr ⟨g, hg, rfl⟩)

lemma map_snd_zip_take {α β : Type} :
    ∀ (l1 : List α) (l2 : List β),
    (l1.zip l2).map Prod.snd = l2.take l1.length := by
  intro l1
  induction l1 with
  | nil => intro l2; simp
  | cons x xs ih =>
    intro l2
    cases l2 with
    | nil => simp
    | cons y ys =>
      rw [List.zip_cons_cons, List.map_cons, ih]
      rfl

/-- C6 (amended): in every successful response the cluster records are
sorted by size descending, and records of equal size are ordered by the
first appearance of their label in the returned assignment map (the
insertion order of the grouping pass), not by label ascending. -/
theorem C6_cluster_record_order (O : Oracles) (eng : Engine)
    (pubs : List Publication) (method : String) (kMax minClusterSize : ℤ)
    (adaptive : Bool) (dimReductionMethod : String) :
    (outcomeClusters (cluster_publications O eng pubs method kMax
        minClusterSize adaptive dimReductionMethod).2).Pairwise
      (fun r1 r2 => r2.size < r1.size
        ∨ (r1.size = r2.size
            ∧ firstPos (outcomeAssignLabels (cluster_publications O eng pubs
                method kMax minClusterSize adaptive dimReductionMethod).2) r1.id
              < firstPos (outcomeAssignLabels (cluster_publications O eng pubs
                method kMax minClusterSize adaptive dimReductionMethod).2)
                r2.id)) := by
  simp only [cluster_publications]
  by_cases hlen : (collectVectors eng.dim pubs eng.cache).2.length < 3
  · rw [if_pos hlen]
    exact List.Pairwise.nil
  · rw [if_neg hlen]
    cases hrun : run_clustering O
        (if method = "auto" then
          auto_method_choice O
            ((collectVectors eng.dim pubs eng.cache).2.map Prod.snd).length
        else method)
        ((collectVectors eng.dim pubs eng.cache).2.map Prod.snd) kMax
        minClusterSize 50 adaptive with
    | none => exact List.Pairwise.nil
    | some r =>
      dsimp only
      by_cases hguard : indexErrorGuard
          ((collectVectors eng.dim pubs eng.cache).2.map Prod.fst)
          (O.viz ((collectVectors eng.dim pubs eng.cache).2.map Prod.snd))
          r.labels = true
      · rw [if_pos hguard]
        exact List.Pairwise.nil
      · rw [if_neg hguard]
        dsimp only [outcomeClusters, outcomeAssignLabels]
        set ids := (collectVectors eng.dim pubs eng.cache).2.map Prod.fst
          with hidsdef
        set X2 := O.viz ((collectVectors eng.dim pubs eng.cache).2.map
          Prod.snd) with hX2def
        have hfp : ∀ a ∈ sortByKeyDesc ClusterRecord.size
            ((buildGroups ids r.labels X2).map (buildRecord pubs)),
            firstPos ((ids.zip r.labels).map Prod.snd) a.id
              = firstPos r.labels a.id := by
          intro a ha
          rcases List.mem_map.mp (mem_sortByKeyDesc _ _ _ ha) with ⟨g, hgm, rfl⟩
          have hb := (buildGroups_order ids r.labels X2).2 g hgm
          have hidg : (buildRecord pubs g).id = g.1 := rfl
          rw [hidg]
          have hlt : firstPos r.labels g.1 < ids.length :=
            (indexErrorGuard_false (Bool.not_eq_true _ ▸ hguard)
              (firstPos r.labels g.1) hb.1 (by rw [hb.2.1]; exact hb.2.2)).1
          rw [map_snd_zip_take, firstPos_take r.labels ids.length g.1 hlt]
        have hrecpw : ((buildGroups ids r.labels X2).map
            (buildRecord pubs)).Pairwise
            (fun a b => firstPos r.labels a.id < firstPos r.labels b.id) :=
          List.Pairwise.map (buildRecord pubs) (fun g1 g2 h => h)
            (buildGroups_order ids r.labels X2).1
        have hsor := pairwise_sortByKeyDesc ClusterRecord.size _ _ hrecpw
        refine List.Pairwise.imp_of_mem ?_ hsor
        intro a b ha hb hab
        rcases hab with h | ⟨heq, hlt⟩
        · exact Or.inl h
        · exact Or.inr ⟨heq, by rw [hfp a ha, hfp b hb]; exact hlt⟩

/-- The unit one-dimensional vector as the engine stores it. -/
def v1 : NVec := ⟨[1], true⟩

/-- A document with id "a" and a valid one-dimensional embedding. -/
def docA : Publication :=
  { id := some "a", combined_embedding := some [some 1], title := none,
    keywords := none, publication_year := none }

/-- A second document with the same id "a" but no embedding at all. -/
def docABad : Publication :=
  { id := some "a", combined_embedding := none, title := none,
    keywords := none, publication_year := none }

/-- A document with id "b" and a valid embedding. -/
def docB : Publication :=
  { id := some "b", combined_embedding := some [some 1], title := none,
    keywords := none, publication_year := none }

/-- A document with id "c" and a valid embedding. -/
def docC : Publication :=
  { id := some "c", combined_embedding := some [some 1], title := none,
    keywords := none, publication_year := none }

/-- A document with id "d" and a valid embedding. -/
def docD : Publication :=
  { id := some "d", combined_embedding := some [some 1], title := none,
    keywords := none, publication_year := none }

/-- A batch where the invalid `docABad` shares its id with the valid `docA`. -/
def pubsDup : List Publication := [docA, docABad, docB, docC]

/-- A batch of four distinct valid documents. -/
def pubsC6 : List Publication := [docA, docB, docC, docD]

/-- The trivial oracle with a hierarchical fit that labels the four rows
`[1, 1, 0, 0]`. -/
def oracleC6 : Oracles := { oracleZ with hierFit := fun _ _ _ => some [1, 1, 0, 0] }

lemma computeVec_one : computeVec 1 (some [some 1]) = v1 := by
  simp only [computeVec]
  rw [if_neg (by decide)]
  show (if 0 < sumSq [(1 : ℚ)] then (⟨[1], true⟩ : NVec) else ⟨[1], false⟩) = v1
  rw [if_pos (by norm_num [sumSq])]
  rfl

lemma gpvA0 : get_publication_vector 1 [] docA = (v1, [("a", v1)]) := by
  rw [gpv_fresh (show docA.id = some "a" from rfl) (by decide)
    (show List.lookup "a" ([] : VCache) = none from rfl)]
  rw [show docA.combined_embedding = some [some 1] from rfl, computeVec_one]
  rfl

lemma gpvABad :
    get_publication_vector 1 [("a", v1)] docABad = (v1, [("a", v1)]) :=
  gpv_hit rfl (by decide) rfl

lemma gpvB : get_publication_vector 1 [("a", v1)] docB
    = (v1, [("a", v1), ("b", v1)]) := by
  rw [gpv_fresh (show docB.id = some "b" from rfl) (by decide)
    (show List.lookup "b" [("a", v1)] = none from rfl)]
  rw [show docB.combined_embedding = some [some 1] from rfl, computeVec_one]
  rfl

lemma gpvC : get_publication_vector 1 [("a", v1), ("b", v1)] docC
    = (v1, [("a", v1), ("b", v1), ("c", v1)]) := by
  rw [gpv_fresh (show docC.id = some "c" from rfl) (by decide)
    (show List.lookup "c" [("a", v1), ("b", v1)] = none from rfl)]
  rw [show docC.combined_embedding = some [some 1] from rfl, computeVec_one]
  rfl

lemma gpvD : get_publication_vector 1 [("a", v1), ("b", v1), ("c", v1)] docD
    = (v1, [("a", v1), ("b", v1), ("c", v1), ("d", v1)]) := by
  rw [gpv_fresh (show docD.id = some "d" from rfl) (by decide)
    (show List.lookup "d" [("a", v1), ("b", v1), ("c", v1)] = none from rfl)]
  rw [show docD.combined_embedding = some [some 1] from rfl, computeVec_one]
  rfl

lemma collDup : collectVectors 1 pubsDup []
    = ([("a", v1), ("b", v1), ("c", v1)],
       [("a", v1), ("b", v1), ("c", v1)]) := by
  have s1 : collectVectors 1 pubsDup []
      = collectVectorsAux 1 [docABad, docB, docC] [("a", v1)] [("a", v1)] := by
    show collectVectorsAux 1 (docA :: [docABad, docB, docC]) [] [] = _
    rw [collectVectorsAux_cons_id rfl (by decide), gpvA0]
    rfl
  have s2 : collectVectorsAux 1 [docABad, docB, docC] [("a", v1)] [("a", v1)]
      = collectVectorsAux 1 [docB, docC] [("a", v1)] [("a", v1)] := by
    rw [collectVectorsAux_cons_id rfl (by decide), gpvABad]
    rfl
  have s3 : collectVectorsAux 1 [docB, docC] [("a", v1)] [("a", v1)]
      = collectVectorsAux 1 [docC] [("a", v1), ("b", v1)]
          [("a", v1), ("b", v1)] := by
    rw [collectVectorsAux_cons_id rfl (by decide), gpvB]
    rfl
  have s4 : collectVectorsAux 1 [docC] [("a", v1), ("b", v1)]
      [("a", v1), ("b", v1)]
      = ([("a", v1), ("b", v1), ("c", v1)],
         [("a", v1), ("b", v1), ("c", v1)]) := by
    rw [collectVectorsAux_cons_id rfl (by decide), gpvC]
    rfl
  rw [s1, s2, s3, s4]

lemma collC6 : collectVectors 1 pubsC6 []
    = ([("a", v1), ("b", v1), ("c", v1), ("d", v1)],
       [("a", v1), ("b", v1), ("c", v1), ("d", v1)]) := by
  have s1 : collectVectors 1 pubsC6 []
      = collectVectorsAux 1 [docB, docC, docD] [("a", v1)] [("a", v1)] := by
    show collectVectorsAux 1 (docA :: [docB, docC, docD]) [] [] = _
    rw [collectVectorsAux_cons_id rfl (by decide), gpvA0]
    rfl
  have s2 : collectVectorsAux 1 [docB, docC, docD] [("a", v1)] [("a", v1)]
      = collectVectorsAux 1 [docC, docD] [("a", v1), ("b", v1)]
          [("a", v1), ("b", v1)] := by
    rw [collectVectorsAux_cons_id rfl (by decide), gpvB]
    rfl
  have s3 : collectVectorsAux 1 [docC, docD] [("a", v1), ("b", v1)]
      [("a", v1), ("b", v1)]
      = collectVectorsAux 1 [docD] [("a", v1), ("b", v1), ("c", v1)]
          [("a", v1), ("b", v1), ("c", v1)] := by
    rw [collectVectorsAux_cons_id rfl (by decide), gpvC]
    rfl
  have s4 : collectVectorsAux 1 [docD] [("a", v1), ("b", v1), ("c", v1)]
      [("a", v1), ("b", v1), ("c", v1)]
      = ([("a", v1), ("b", v1), ("c", v1), ("d", v1)],
         [("a", v1), ("b", v1), ("c", v1), ("d", v1)]) := by
    rw [collectVectorsAux_cons_id rfl (by decide), gpvD]
    rfl
  rw [s1, s2, s3, s4]

lemma natSqrt_one : Nat.sqrt 1 = 1 := natSqrt_eq (by decide) (by decide)

lemma natSqrt_two : Nat.sqrt 2 = 1 := natSqrt_eq (by decide) (by decide)

lemma hrunDup :
    run_clustering oracleZ "hierarchical" [v1, v1, v1] 10 5 50 false
      = some ⟨[0, 0, 0], 2, "hierarchical", [], none⟩ := by
  simp only [run_clustering]
  rw [if_pos trivial]
  simp only [hierPath]
  rw [show ([v1, v1, v1] : List NVec).length / 2 = 1 from rfl, natSqrt_one]
  rfl

lemma hrunC6 :
    run_clustering oracleC6 "hierarchical" [v1, v1, v1, v1] 10 5 50 false
      = some ⟨[1, 1, 0, 0], 2, "hierarchical", [], none⟩ := by
  simp only [run_clustering]
  rw [if_pos trivial]
  simp only [hierPath]
  rw [show ([v1, v1, v1, v1] : List NVec).length / 2 = 2 from rfl, natSqrt_two]
  rfl

lemma validEntry_some {dim : ℕ} {p : Publication} {pid : String} {v : NVec}
    (h : validEntry dim p = some (pid, v)) :
    p.id = some pid ∧ pid ≠ ""
      ∧ claimValidVec dim p.combined_embedding = true
      ∧ v = computeVec dim p.combined_embedding := by
  unfold validEntry at h
  cases hid : p.id with
  | none =>
    rw [hid] at h
    exact Option.noConfusion h
  | some pid0 =>
    rw [hid] at h
    dsimp only at h
    by_cases hpid : pid0 = ""
    · rw [if_pos hpid] at h
      exact Option.noConfusion h
    · rw [if_neg hpid] at h
      by_cases hnz : (computeVec dim p.combined_embedding).anyNonzero = true
      · rw [if_pos hnz] at h
        injection h with h2
        injection h2 with ha hb
        subst ha
        refine ⟨rfl, hpid, ?_, hb.symm⟩
        rw [← computeVec_anyNonzero]
        exact hnz
      · rw [if_neg hnz] at h
        exact Option.noConfusion h

/-- C7 (amended): on a fresh cache and with pairwise-distinct truthy ids,
every member id of every returned ClusterRecord is the truthy id of a batch
document whose embedding is valid (present, correct dimension, NaN-free and
non-zero).  (The original claim fails without those hypotheses: a stale
cache entry or a duplicated id lets a document with an absent or invalid
embedding share its id with a member.) -/
theorem C7_members_valid (O : Oracles) (eng : Engine)
    (pubs : List Publication) (method : String) (kMax minClusterSize : ℤ)
    (adaptive : Bool) (dimReductionMethod : String)
    (hfresh : ∀ p ∈ pubs, ∀ pid, p.id = some pid → pid ≠ "" →
      eng.cache.lookup pid = none)
    (hnodup : (pubs.filterMap truthyId).Nodup) :
    ∀ rec ∈ outcomeClusters (cluster_publications O eng pubs method kMax
        minClusterSize adaptive dimReductionMethod).2,
      ∀ pid ∈ rec.publications,
        ∃ p ∈ pubs, p.id = some pid ∧ pid ≠ ""
          ∧ claimValidVec eng.dim p.combined_embedding = true := by
  have hchars : (collectVectors eng.dim pubs eng.cache).2
      = pubs.filterMap (validEntry eng.dim) :=
    (collectVectorsAux_chars eng.dim pubs eng.cache [] hfresh hnodup
      (by intro k hk; simp at hk)).trans (List.nil_append _)
  simp only [cluster_publications]
  by_cases hlen : (collectVectors eng.dim pubs eng.cache).2.length < 3
  · rw [if_pos hlen]
    intro rec hrec
    exact absurd hrec (List.not_mem_nil rec)
  · rw [if_neg hlen]
    cases hrun : run_clustering O
        (if method = "auto" then
          auto_method_choice O
            ((collectVectors eng.dim pubs eng.cache).2.map Prod.snd).length
        else method)
        ((collectVectors eng.dim pubs eng.cache).2.map Prod.snd) kMax
        minClusterSize 50 adaptive with
    | none =>
      intro rec hrec
      exact absurd hrec (List.not_mem_nil rec)
    | some r =>
      dsimp only
      by_cases hguard : indexErrorGuard
          ((collectVectors eng.dim pubs eng.cache).2.map Prod.fst)
          (O.viz ((collectVectors eng.dim pubs eng.cache).2.map Prod.snd))
          r.labels = true
      · rw [if_pos hguard]
        intro rec hrec
        exact absurd hrec (List.not_mem_nil rec)
      · rw [if_neg hguard]
        dsimp only [outcomeClusters]
        intro rec hrec pid hpid
        rcases List.mem_map.mp (mem_sortByKeyDesc _ _ _ hrec) with ⟨g, hgm, rfl⟩
        have hpid2 : pid ∈ g.2.1 := hpid
        have hin : pid ∈ (collectVectors eng.dim pubs eng.cache).2.map
            Prod.fst :=
          buildGroups_members _ _ _
            (fun i hi hl =>
              (indexErrorGuard_false (Bool.not_eq_true _ ▸ hguard) i hi hl).1)
            g hgm pid hpid2
        rcases List.mem_map.mp hin with ⟨⟨k, v⟩, hkv, rfl⟩
        rw [hchars] at hkv
        rcases List.mem_filterMap.mp hkv with ⟨p, hp, hpe⟩
        obtain ⟨hid, hpne, hvalid, _⟩ := validEntry_some hpe
        exact ⟨p, hp, hid, hpne, hvalid⟩

theorem C7_members_valid_witness :
    (∀ p ∈ pubsC6, ∀ pid, p.id = some pid → pid ≠ "" →
      (Engine.mk 1 [] none).cache.lookup pid = none)
    ∧ (pubsC6.filterMap truthyId).Nodup
    ∧ ∀ rec ∈ outcomeClusters (cluster_publications oracleC6
        (Engine.mk 1 [] none) pubsC6 "hierarchical" 10 5 false "pca").2,
        ∀ pid ∈ rec.publications,
          ∃ p ∈ pubsC6, p.id = some pid ∧ pid ≠ ""
            ∧ claimValidVec 1 p.combined_embedding = true :=
  ⟨fun p _ pid _ _ => rfl, by decide,
   C7_members_valid oracleC6 (Engine.mk 1 [] none) pubsC6 "hierarchical" 10 5
     false "pca" (fun p _ pid _ _ => rfl) (by decide)⟩

lemma exists_of_map_eq_singleton {α β : Type} {f : α → β} {l : List α}
    {x : β} (h : l.map f = [x]) : ∃ a ∈ l, f a = x := by
  cases l with
  | nil => simp at h
  | cons a as =>
    simp only [List.map_cons, List.cons.injEq] at h
    exact ⟨a, List.mem_cons_self _ _, h.1⟩

lemma evalDupMembers :
    (outcomeClusters (cluster_publications oracleZ (Engine.mk 1 [] none)
        pubsDup "hierarchical" 10 5 false "pca").2).map
      (fun r => r.publications) = [["a", "b", "c"]] := by
  simp only [cluster_publications]
  rw [show collectVectors (Engine.mk 1 [] none).dim pubsDup
      (Engine.mk 1 [] none).cache
      = ([("a", v1), ("b", v1), ("c", v1)],
         [("a", v1), ("b", v1), ("c", v1)]) from collDup]
  rw [if_neg (by decide), if_neg (by decide)]
  rw [show (([("a", v1), ("b", v1), ("c", v1)],
      [("a", v1), ("b", v1), ("c", v1)]) :
        VCache × List (String × NVec)).2.map Prod.snd
      = [v1, v1, v1] from rfl]
  rw [hrunDup]
  dsimp only
  rw [if_neg (by decide)]
  rfl

lemma evalC6IdSizes :
    (outcomeClusters (cluster_publications oracleC6 (Engine.mk 1 [] none)
        pubsC6 "hierarchical" 10 5 false "pca").2).map
      (fun r => (r.id, r.size)) = [(1, 2), (0, 2)] := by
  simp only [cluster_publications]
  rw [show collectVectors (Engine.mk 1 [] none).dim pubsC6
      (Engine.mk 1 [] none).cache
      = ([("a", v1), ("b", v1), ("c", v1), ("d", v1)],
         [("a", v1), ("b", v1), ("c", v1), ("d", v1)]) from collC6]
  rw [if_neg (by decide), if_neg (by decide)]
  rw [show (([("a", v1), ("b", v1), ("c", v1), ("d", v1)],
      [("a", v1), ("b", v1), ("c", v1), ("d", v1)]) :
        VCache × List (String × NVec)).2.map Prod.snd
      = [v1, v1, v1, v1] from rfl]
  rw [hrunC6]
  dsimp only
  rw [if_neg (by decide)]
  rfl

/-- C7 counterexample: in the batch `pubsDup` the document `docABad` has id
"a" and no embedding at all, yet "a" is a member id of a returned
ClusterRecord (its valid duplicate `docA` put the id into the vector dict
and the cache). -/
theorem C7_counterexample :
    docABad ∈ pubsDup
    ∧ docABad.id = some "a"
    ∧ docABad.combined_embedding = none
    ∧ ∃ rec ∈ outcomeClusters (cluster_publications oracleZ
        (Engine.mk 1 [] none) pubsDup "hierarchical" 10 5 false "pca").2,
        "a" ∈ rec.publications := by
  refine ⟨by decide, rfl, rfl, ?_⟩
  obtain ⟨rec, hrec, hpub⟩ := exists_of_map_eq_singleton evalDupMembers
  exact ⟨rec, hrec, by rw [hpub]; decide⟩

/-- C6 counterexample: a run whose two clusters have equal size 2 returns
them with labels in order [1, 0] - the first-appearance order of the labels,
not label-ascending order as the claim states. -/
theorem C6_counterexample :
    ((outcomeClusters (cluster_publications oracleC6 (Engine.mk 1 [] none)
        pubsC6 "hierarchical" 10 5 false "pca").2).map
      (fun r => (r.id, r.size))) = [(1, 2), (0, 2)]
    ∧ ¬ (outcomeClusters (cluster_publications oracleC6 (Engine.mk 1 [] none)
        pubsC6 "hierarchical" 10 5 false "pca").2).Pairwise
        (fun r1 r2 => r2.size < r1.size
          ∨ (r1.size = r2.size ∧ r1.id ≤ r2.id)) := by
  refine ⟨evalC6IdSizes, fun h => ?_⟩
  have h2 : ((outcomeClusters (cluster_publications oracleC6
      (Engine.mk 1 [] none) pubsC6 "hierarchical" 10 5 false "pca").2).map
        (fun r => (r.id, r.size))).Pairwise
      (fun p1 p2 => p2.2 < p1.2 ∨ (p1.2 = p2.2 ∧ p1.1 ≤ p2.1)) :=
    List.Pairwise.map _ (fun a b hab => hab) h
  rw [evalC6IdSizes] at h2
  have h3 := (List.pairwise_cons.mp h2).1 ((0 : ℤ), (2 : ℕ)) (by decide)
  rcases h3 with h4 | ⟨_, h4⟩
  · exact absurd h4 (by decide)
  · exact absurd h4 (by decide)

lemma optimize_pca_length (O : Oracles) (X : List NVec) (vt : ℚ) (md : ℕ)
    (hrows : ∀ n X2, (O.pcaFit n X2).length = X2.length) :
    (optimize_pca_dimensions O X vt md).2.length = X.length := by
  unfold optimize_pca_dimensions
  dsimp only
  split
  · rfl
  · split
    · exact hrows _ _
    · rfl

lemma clampClusterRange_minC_pos (n : ℕ) (minK maxK : ℤ)
    (hmin : 2 ≤ minK) (hmax : 3 ≤ maxK) (hn : 10 ≤ n) :
    1 ≤ (clampClusterRange n minK maxK).1 := by
  unfold clampClusterRange
  dsimp only
  split <;> dsimp only <;> omega

lemma adaptivePath_nClusters (O : Oracles) (am : String) (X : List NVec)
    (kMax : ℤ) (hrows : ∀ n X2, (O.pcaFit n X2).length = X2.length)
    (hn : 10 ≤ X.length) :
    1 ≤ (adaptivePath O am X kMax).nClusters := by
  have hXred := optimize_pca_length O X (9 / 10) 100 hrows
  unfold adaptivePath
  dsimp only
  rw [optimize_k_eq]
  split
  · refine le_trans
      (clampClusterRange_minC_pos _ 2 3 (by norm_num) (by norm_num)
        (by omega))
      (le_add_of_nonneg_right (Int.natCast_nonneg _))
  · rename_i hlt
    have h2 : (2 : ℤ) ≤ max 2 (min (kMax - 1) 3) := le_max_left _ _
    refine le_trans
      (clampClusterRange_minC_pos _ _ _ h2 (by omega) (by omega))
      (le_add_of_nonneg_right (Int.natCast_nonneg _))

/-- C5 (amended): a method string outside the five known ones AND not
starting with "kmeans" falls back - with the unknown-method warning - to the
adaptive path run with actual method "kmeans" (the recursive
`_run_clustering("kmeans", ...)` call leaves `adaptive` at its default
True); the call does not raise for this reason and, for a batch of at least
10 rows and a row-preserving PCA, reports at least one cluster.  (A string
that merely starts with "kmeans", such as "kmeansx", instead takes the
explicit kmeans branch silently, with no warning - the original claim is
wrong for those strings.) -/
theorem C5_unknown_method_fallback (O : Oracles) (X : List NVec)
    (method : String) (kMax minClusterSize : ℤ) (nDims : ℕ)
    (adaptive : Bool)
    (hm : method ∉ (["kmeans", "hierarchical", "hdbscan", "adaptive",
        "auto"] : List String))
    (hpre : ¬ "kmeans".data.isPrefixOf method.data)
    (hrows : ∀ n X2, (O.pcaFit n X2).length = X2.length)
    (hn : 10 ≤ X.length) :
    run_clustering O method X kMax minClusterSize nDims adaptive
      = addWarning unknownMethodWarning (some (adaptivePath O "kmeans" X kMax))
    ∧ ∃ r, run_clustering O method X kMax minClusterSize nDims adaptive
          = some r
        ∧ unknownMethodWarning ∈ r.warnings ∧ 1 ≤ r.nClusters := by
  simp only [List.mem_cons, List.not_mem_nil, or_false] at hm
  push_neg at hm
  obtain ⟨hk, hh, hd, ha, hau⟩ := hm
  have heq : run_clustering O method X kMax minClusterSize nDims adaptive
      = addWarning unknownMethodWarning
          (some (adaptivePath O "kmeans" X kMax)) := by
    unfold run_clustering
    rw [if_neg (by
      intro hcon
      rcases hcon with h | ⟨_, hmem⟩
      · exact ha h
      · simp only [List.mem_cons, List.not_mem_nil, or_false] at hmem
        rcases hmem with h | h | h
        · exact hk h
        · exact hh h
        · exact hau h)]
    rw [if_neg hpre, if_neg hh, if_neg hd]
  refine ⟨heq,
    ⟨{ adaptivePath O "kmeans" X kMax with
        warnings := unknownMethodWarning
          :: (adaptivePath O "kmeans" X kMax).warnings }, ?_, ?_, ?_⟩⟩
  · rw [heq]
    rfl
  · exact List.mem_cons_self _ _
  · exact adaptivePath_nClusters O "kmeans" X kMax hrows hn

theorem C5_unknown_method_fallback_witness :
    ("banana" ∉ (["kmeans", "hierarchical", "hdbscan", "adaptive",
        "auto"] : List String))
    ∧ ¬ "kmeans".data.isPrefixOf "banana".data
    ∧ 10 ≤ X10.length
    ∧ (run_clustering oracleZ "banana" X10 10 5 50 false
        = addWarning unknownMethodWarning
            (some (adaptivePath oracleZ "kmeans" X10 10))
      ∧ ∃ r, run_clustering oracleZ "banana" X10 10 5 50 false = some r
          ∧ unknownMethodWarning ∈ r.warnings ∧ 1 ≤ r.nClusters) :=
  ⟨by decide, by decide, by decide,
   C5_unknown_method_fallback oracleZ X10 "banana" 10 5 50 false (by decide)
     (by decide) (fun n X2 => rfl) (by decide)⟩

/-- C5 counterexample: "kmeansx" is outside the five known method strings,
yet the call takes the explicit kmeans branch via the `startswith("kmeans")`
test and returns with an empty warning list - no fallback warning is ever
logged for it. -/
theorem C5_counterexample :
    "kmeansx" ∉ (["kmeans", "hierarchical", "hdbscan", "adaptive",
        "auto"] : List String)
    ∧ run_clustering oracleZ "kmeansx" [v1, v1, v1] 10 5 50 false
        = some ⟨[0, 0, 0], 2, "kmeans (PCA)", [], none⟩
    ∧ ∀ r, run_clustering oracleZ "kmeansx" [v1, v1, v1] 10 5 50 false
          = some r → r.warnings = [] := by
  have heval : run_clustering oracleZ "kmeansx" [v1, v1, v1] 10 5 50 false
      = some ⟨[0, 0, 0], 2, "kmeans (PCA)", [], none⟩ := by
    simp only [run_clustering]
    rw [if_neg (by decide), if_pos (by decide)]
    unfold kmeansPath
    dsimp only
    rw [if_neg (by decide)]
    rw [show ([v1, v1, v1] : List NVec).length / 2 = 1 from rfl, natSqrt_one]
    rfl
  refine ⟨by decide, heval, fun r h => ?_⟩
  rw [heval] at h
  injection h with h2
  rw [← h2]

end PubClust
